import Mathlib

/-!
Verification development for the kaa object database (`db.py`): a shallow
embedding of its schema registry, object store, inverted keyword index and
keyword search, together with theorems settling the specification claims.

Modelling conventions:
* Python dicts that the code iterates over become association lists kept in
  insertion order; SQL tables become Lean lists of rows in insertion order.
* Machine floats only ever hold exact small rationals here (coefficients,
  word-frequency quotients), so scores are modelled in `ℚ`.  The score the
  code stores is `sqrt(q)` for such a rational `q`; the model stores `q`
  itself and compares against `Real.sqrt q` in theorem statements.
* Strings are modelled over Lean `Char`; the code's `re.U` character
  classes are instantiated at their ASCII meaning (`isAlpha`,
  `isWhitespace`, `isAlphanum`), which is faithful for ASCII data.
* Exceptions: each database operation returns its (possibly partial)
  result state together with an optional error, matching the statement
  order of the source, so that a raise mid-operation leaves exactly the
  mutations already performed.
-/

deriving instance DecidableEq for Except

namespace KaaDb

/-- Error taxonomy of `db.py`: `ValueError`, `assert` failures (the spec's
`SchemaError`), `KeyError` from `_object_types` lookups, and errors raised
by the SQL engine itself. `fuel` marks model recursion-fuel exhaustion,
which no theorem relies on. -/
inductive DbErr
  | valueError
  | schemaError
  | keyError
  | sqlError
  | fuel
  deriving DecidableEq, Repr

/-- STOP_WORDS from db.py (the tuple literal, duplicates included). -/
def STOP_WORDS : List String :=
  ["about", "and", "are", "but", "com", "for", "from", "how", "not",
   "some", "that", "the", "this", "was", "what", "when", "where", "who",
   "will", "with", "the", "www", "http", "org", "of", "on"]

/-- MIN_WORD_LENGTH from db.py. -/
def MIN_WORD_LENGTH : Nat := 2

/-- MAX_WORD_LENGTH from db.py. -/
def MAX_WORD_LENGTH : Nat := 30

/-- RESERVED_ATTRIBUTES from db.py. -/
def RESERVED_ATTRIBUTES : List String :=
  ["parent", "object", "keywords", "type", "limit", "attrs", "distinct"]

/-! ### Splitting text into token runs

`WORDS_DELIM = re.compile("[\\W_\\d]+", re.U)`: a delimiter is anything that
is not a letter (non-word chars, underscore, digits), so `re.split` yields
the maximal runs of letters (plus empty boundary fragments, which every
consumer in the source immediately discards via `if not word: continue`;
the model omits them).  `unicode.split()` (no argument) likewise yields the
maximal runs of non-whitespace.  Both are instances of `runsBy`. -/

/-- Maximal runs of characters satisfying `keep`, in order; the accumulator
holds the current run reversed. -/
def runsByAux (keep : Char → Bool) : List Char → List Char → List (List Char)
  | [], acc => if acc.isEmpty then [] else [acc.reverse]
  | c :: cs, acc =>
    if keep c then runsByAux keep cs (c :: acc)
    else if acc.isEmpty then runsByAux keep cs []
    else acc.reverse :: runsByAux keep cs []

/-- Maximal runs of characters of `s` satisfying `keep`, as strings. -/
def runsBy (keep : Char → Bool) (s : String) : List String :=
  (runsByAux keep s.toList []).map List.asString

/-- `WORDS_DELIM.split(text)` with empty fragments dropped: maximal runs of
letters. -/
def wordRuns (s : String) : List String := runsBy Char.isAlpha s

/-- `text.split()` (Python whitespace split, which never yields empty
fragments): maximal runs of non-whitespace. -/
def splitWS (s : String) : List String := runsBy (fun c => !c.isWhitespace) s

/-- Python `unicode.lower()`, at its ASCII meaning: per-character
lower-casing. -/
def lowerStr (s : String) : String := (s.toList.map Char.toLower).asString

/-! ### Filename decomposition in `_score_words` -/

/-- A `\w` character (word char): alphanumeric or underscore. -/
def isWordChar (c : Char) : Bool := c.isAlphanum || c == '_'

/-- `re.search("\\.\\w{2,5}$", text)`: some suffix of the text is a dot
followed by between 2 and 5 word characters. -/
def hasExtMatch (s : String) : Bool :=
  let r := s.toList.reverse
  [2, 3, 4, 5].any fun k =>
    (r.take k).length == k && (r.take k).all isWordChar && r.get? k == some '.'

/-- Drop the longest suffix of `l` whose characters satisfy `p`. -/
def dropWhileEnd (p : Char → Bool) (l : List Char) : List Char :=
  (l.reverse.dropWhile p).reverse

/-- Index of the last occurrence of `c` in `cs`, if any. -/
def lastIdxOf (c : Char) (cs : List Char) : Option Nat :=
  (List.range cs.length).foldl
    (fun acc i => if cs.get? i == some c then some i else acc) none

/-- `os.path.split` (posix): split at the last slash; the head keeps the
slash only if it consists solely of slashes, otherwise trailing slashes are
stripped from it. -/
def ospathSplit (s : String) : String × String :=
  let cs := s.toList
  match lastIdxOf '/' cs with
  | none => ("", s)
  | some i =>
    let head := cs.take (i + 1)
    let tail := cs.drop (i + 1)
    let head := if head.all (· == '/') then head else dropWhileEnd (· == '/') head
    (head.asString, tail.asString)

/-- `os.path.splitext` for a path without slashes: split at the last dot
unless every character before that dot is itself a dot. -/
def splitext (p : String) : String × String :=
  let cs := p.toList
  match lastIdxOf '.' cs with
  | none => (p, "")
  | some d =>
    if (cs.take d).all (· == '.') then (p, "")
    else ((cs.take d).asString, (cs.drop d).asString)

/-- Python `s.strip('/')`. -/
def stripSlashes (s : String) : String :=
  (dropWhileEnd (· == '/') (s.toList.dropWhile (· == '/'))).asString

/-- The path branch of `_score_words`: strip the first two directory
levels, keep the last two remaining levels plus the filename stem, split
that on `WORDS_DELIM`, and append the raw stem as one extra token. -/
def pathParsed (text : String) : List String :=
  let dn_fn := ospathSplit text
  let fname_noext := (splitext dn_fn.2).1
  let levels := (((stripSlashes dn_fn.1).splitOn "/").drop 2).reverse.take 2 |>.reverse
  let joined := String.intercalate " " (levels ++ [fname_noext])
  wordRuns joined ++ [fname_noext]

/-- Token stream of one text part in `_score_words`: the filename
decomposition when the text is shorter than 255 chars and ends in an
extension-like suffix, a plain `WORDS_DELIM` split otherwise. -/
def partTokens (text : String) : List String :=
  if text.length < 255 && hasExtMatch text then pathParsed text else wordRuns text

/-! ### The keyword scorer `_score_words` -/

/-- Dynamically typed attribute values (the subset of Python values the
store handles); `none` is Python `None` / SQL NULL. -/
inductive Value
  | none
  | vint (z : ℤ)
  | vflt (q : ℚ)
  | vstr (s : String)
  | vuni (s : String)
  | vbuf (s : String)
  deriving DecidableEq, Repr

/-- Python truthiness test `not text` for the values a keyword attribute
can hold. -/
def Value.isFalsy : Value → Bool
  | .none => true
  | .vint z => z == 0
  | .vflt q => q == 0
  | .vstr s => s.isEmpty
  | .vuni s => s.isEmpty
  | .vbuf s => s.isEmpty

/-- The text of a keyword part when it is a string; `_score_words` raises
`ValueError` on any non-string truthy value. -/
def Value.textOf : Value → Option String
  | .vstr s => some s
  | .vuni s => some s
  | _ => Option.none

/-- Look up a key in an association list (leftmost binding). -/
def alistGet {α β : Type} [DecidableEq α] (l : List (α × β)) (k : α) : Option β :=
  match l with
  | [] => Option.none
  | (a, b) :: rest => if k = a then some b else alistGet rest k

/-- Set a key in an association list: replace the existing binding in
place, or append a new one (Python dict assignment). -/
def alistSet {α β : Type} [DecidableEq α] (l : List (α × β)) (k : α) (v : β) :
    List (α × β) :=
  match l with
  | [] => [(k, v)]
  | (a, b) :: rest => if k = a then (a, v) :: rest else (a, b) :: alistSet rest k v

/-- `dict.update`: apply `alistSet` for each binding of `upd` in order. -/
def alistUpdate {α β : Type} [DecidableEq α] (l upd : List (α × β)) : List (α × β) :=
  upd.foldl (fun acc kv => alistSet acc kv.1 kv.2) l

/-- One token of one part in the word loop of `_score_words`: drop empty or
overlong tokens, lower-case, drop short tokens and stop words, otherwise
add `coeff` to the token's accumulated coefficient and bump the total token
count. -/
def addTok (coeff : ℚ) (acc : List (String × ℚ) × Nat) (w : String) :
    List (String × ℚ) × Nat :=
  if w.isEmpty || decide (w.length > MAX_WORD_LENGTH) then acc
  else
    if decide ((lowerStr w).length < MIN_WORD_LENGTH) ||
       STOP_WORDS.contains (lowerStr w) then acc
    else
      match alistGet acc.1 (lowerStr w) with
      | Option.none => (acc.1 ++ [(lowerStr w, coeff)], acc.2 + 1)
      | some s => (alistSet acc.1 (lowerStr w) (s + coeff), acc.2 + 1)

/-- The accumulation loop of `_score_words` over the parts: `words` dict
and `total_words` counter.  Falsy texts are skipped; truthy non-string
texts raise `ValueError`. -/
def scoreAccum : List (Value × ℚ) → List (String × ℚ) × Nat →
    Except DbErr (List (String × ℚ) × Nat)
  | [], acc => .ok acc
  | (v, coeff) :: rest, acc =>
    if v.isFalsy then scoreAccum rest acc
    else
      match v.textOf with
      | Option.none => .error .valueError
      | some text => scoreAccum rest ((partTokens text).foldl (addTok coeff) acc)

/-- `_score_words`: accumulate, then replace each word's coefficient sum
`s` by its score.  The code stores `sqrt(s / total_words)`; the model keeps
the exact radicand `s / total_words : ℚ`. -/
def scoreWords (parts : List (Value × ℚ)) : Except DbErr (List (String × ℚ)) :=
  match scoreAccum parts ([], 0) with
  | .error e => .error e
  | .ok acc => .ok (acc.1.map fun p => (p.1, p.2 / (acc.2 : ℚ)))

/-- The rank `int(score * 10)` stored by `_add_object_keywords`, computed
from the exact radicand `q` (`score = sqrt q`, `q ≥ 0`): this equals
`⌊10·√q⌋ = ⌊√(100·num·den)/den⌋ = Nat.sqrt (100·num·den) / den`. -/
def rankOfScoreSq (q : ℚ) : ℤ :=
  ((Nat.sqrt (100 * q.num.toNat * q.den) / q.den : ℕ) : ℤ)

/-! ### Tokenization of `_query_keywords` -/

/-- The query terms of `_query_keywords`: lower-case the phrase, split on
whitespace, keep tokens of length at least `MIN_WORD_LENGTH` that are not
stop words.  (No `WORDS_DELIM` split and no maximum-length filter.) -/
def queryTerms (phrase : String) : List String :=
  (splitWS (lowerStr phrase)).filter fun x =>
    decide (MIN_WORD_LENGTH ≤ x.length) && !STOP_WORDS.contains x

/-- The tokens the scorer derives from one text, after its full filter
pipeline (used to compare the two tokenizations). -/
def scorerTerms (text : String) : List String :=
  (partTokens text).filterMap fun w =>
    if w.isEmpty || decide (w.length > MAX_WORD_LENGTH) then Option.none
    else
      let wl := lowerStr w
      if decide (wl.length < MIN_WORD_LENGTH) || STOP_WORDS.contains wl then Option.none
      else some wl

/-! ### The database state -/

/-- The Python types an attribute may be declared with (`int`, `float`,
`buffer`, `unicode`, `str`); every one of them has an SQL column type in
`sql_types`, so the `Type '%s' not supported` branch is unreachable. -/
inductive PyType
  | int
  | float
  | buffer
  | unicode
  | str
  deriving DecidableEq, Repr

/-- Runtime Python type of a value (`type(value)`). -/
def Value.pyType : Value → Option PyType
  | .none => Option.none
  | .vint _ => some .int
  | .vflt _ => some .float
  | .vstr _ => some .str
  | .vuni _ => some .unicode
  | .vbuf _ => some .buffer

/-- Attribute flag bits from db.py. -/
def ATTR_SIMPLE : Nat := 0x00

/-- ATTR_SEARCHABLE: the attribute is an SQL column, not a pickled field. -/
def ATTR_SEARCHABLE : Nat := 0x01

/-- ATTR_INDEXED: the column gets an SQL index. -/
def ATTR_INDEXED : Nat := 0x02

/-- ATTR_KEYWORDS: the attribute is indexed for keyword queries. -/
def ATTR_KEYWORDS : Nat := 0x04

/-- ATTR_IGNORE_CASE: stored lower-cased for searches. -/
def ATTR_IGNORE_CASE : Nat := 0x08

/-- ATTR_INDEXED_IGNORE_CASE = ATTR_INDEXED | ATTR_IGNORE_CASE. -/
def ATTR_INDEXED_IGNORE_CASE : Nat := ATTR_INDEXED ||| ATTR_IGNORE_CASE

/-- An attribute declaration `(python type, flag bitmask)`. -/
abbrev AttrSpec := PyType × Nat

/-- One entry of the in-memory `_object_types` registry: the type's row id
in the `types` table, its attribute dict and its multi-column index list
(the unpickled `attrs_pickle` / `idx_pickle`). -/
structure TypeInfo where
  id : Nat
  attrs : List (String × AttrSpec)
  idx : List (List String)
  deriving DecidableEq, Repr

/-- One row of an `objects_<type>` table.  `id` is the AUTOINCREMENT
primary key; all other materialized columns (including `parent_type`,
`parent_id`) live in `cols` keyed by column name, with absent keys meaning
SQL NULL; `pickle` is the decoded blob of simple attributes. -/
structure ObjRow where
  id : Nat
  cols : List (String × Value)
  pickle : List (String × Value)
  deriving DecidableEq, Repr

/-- One `objects_<type>` table: its rows, the next AUTOINCREMENT id, and
whether the `delete_object_<type>` trigger (decrementing
`keywords_objectcount` per deleted row) exists on it. -/
structure TableData where
  nextId : Nat
  rows : List ObjRow
  hasKwTrigger : Bool
  deriving DecidableEq, Repr

/-- One row of the `words` table. -/
structure WordRow where
  id : Nat
  word : String
  count : ℤ
  deriving DecidableEq, Repr

/-- One row of the `words_map` table.  The code's REAL `frequency` column
holds `sqrt(freqSq)`; the model stores the exact radicand `freqSq` and the
rank the code computes from it (`int(score*10) = rankOfScoreSq freqSq`). -/
structure Posting where
  rank : ℤ
  word_id : Nat
  object_type : Nat
  object_id : Nat
  freqSq : ℚ
  deriving DecidableEq, Repr

/-- Schema-changing SQL statements, logged in execution order so that
theorems can state "no table rebuild happened" or "this index was
created". -/
inductive DbEvent
  | createTable (name : String) (cols : List String)
  | dropTable (name : String)
  | renameTable (tmp dst : String)
  | createIndex (name : String)
  | createTrigger (name : String)
  | insertTypesRow (tid : Nat)
  | updateTypesAttrs (tid : Nat)
  | updateTypesIdx (tid : Nat)
  deriving DecidableEq, Repr

/-- The whole database: the `_object_types` registry, the per-type object
tables (keyed by type name), the `words` and `words_map` tables, the
`keywords_objectcount` meta counter, the AUTOINCREMENT cursors of the
`types` and `words` tables, and the schema-event log. -/
structure DBState where
  types : List (String × TypeInfo)
  tables : List (String × TableData)
  words : List WordRow
  words_map : List Posting
  kwObjCount : ℤ
  nextTypeId : Nat
  nextWordId : Nat
  log : List DbEvent
  deriving DecidableEq, Repr

/-- A freshly created database (CREATE_SCHEMA): no types, no words, no
postings, `keywords_objectcount = 0`. -/
def emptyState : DBState :=
  { types := [], tables := [], words := [], words_map := [],
    kwObjCount := 0, nextTypeId := 1, nextWordId := 1, log := [] }

/-- `_type_has_keyword_attr`: some registered attribute of the type has
ATTR_KEYWORDS set. -/
def typeHasKeywordAttr (types : List (String × TypeInfo)) (type_name : String) :
    Bool :=
  match alistGet types type_name with
  | Option.none => false
  | some info => info.attrs.any fun a => a.2.2 &&& ATTR_KEYWORDS ≠ 0

/-! ### `register_object_type_attrs` -/

/-- `_register_check_indexes`: every column of every multi-column index
spec must be a registered attribute with nonzero flags (index specs are
already lists in the model, so the list/tuple shape check passes). -/
def checkIndexes (indexes : List (List String)) (attrs : List (String × AttrSpec)) :
    Option DbErr :=
  if indexes.all (fun cols => cols.all fun col =>
      match alistGet attrs col with
      | Option.none => false
      | some spec => spec.2 ≠ 0)
  then Option.none else some .valueError

/-- Names of the attributes materialized as SQL columns (nonzero flags). -/
def matNames (attrs : List (String × AttrSpec)) : List String :=
  (attrs.filter fun a => a.2.2 ≠ 0).map (·.1)

/-- Largest row id present in a list of rows (0 when empty): the
AUTOINCREMENT sequence position of a table that was just filled by an
`INSERT ... SELECT` of these rows. -/
def maxRowId (rows : List ObjRow) : Nat :=
  rows.foldl (fun m r => max m r.id) 0

/-- The implicit attributes merged into every new type registration. -/
def implicitAttrs : List (String × AttrSpec) :=
  [("id", (.int, ATTR_SEARCHABLE)),
   ("parent_type", (.int, ATTR_SEARCHABLE)),
   ("parent_id", (.int, ATTR_SEARCHABLE)),
   ("pickle", (.buffer, ATTR_SEARCHABLE))]

/-- The shared table-building tail of `register_object_type_attrs` (from
`create_stmt` on): assert no reserved attribute names, create the
temporary table with one column per nonzero-flag attribute, INSERT OR
REPLACE the types row, migrate and drop the old table when re-registering,
rename the temporary table, recreate the keyword-delete trigger, the
parent index, single-column indexes and multi-column indexes.
`old` is `(cur_type_id, cur_type_attrs)` when an existing type is being
rebuilt (`new_attrs` nonempty in the source), `none` for a first
registration.  `finishTable` is the tail after row migration: rename the
temporary table into place and recreate trigger and indexes. -/
def finishTable (st : DBState) (type_name : String)
    (attrs : List (String × AttrSpec)) (indexes : List (List String))
    (migrated : List ObjRow) : DBState :=
  let table_name := "objects_" ++ type_name
  let hasKw := typeHasKeywordAttr st.types type_name
  { st with
    tables := alistSet st.tables table_name
      ⟨maxRowId migrated + 1, migrated, hasKw⟩,
    log := st.log ++
      [DbEvent.renameTable (table_name ++ "_tmp") table_name] ++
      (if hasKw then [DbEvent.createTrigger ("delete_object_" ++ type_name)] else []) ++
      [DbEvent.createIndex (table_name ++ "_parent_idx")] ++
      ((attrs.filter fun a => a.2.2 &&& ATTR_INDEXED ≠ 0).map fun a =>
        DbEvent.createIndex (table_name ++ "_" ++ a.1 ++ "_idx")) ++
      (indexes.map fun cols =>
        DbEvent.createIndex (table_name ++ "_" ++ String.intercalate "_" cols ++ "_idx")) }

/-- Restriction of a migrated row to the copied column set (`INSERT INTO
tmp (columns) SELECT columns FROM old` copies exactly the old
materialized columns by name; `id` and `pickle` are themselves always
among them for a registered type, so the model carries them over
directly). -/
def restrictRow (columns : List String) (r : ObjRow) : ObjRow :=
  { r with cols := r.cols.filter fun cv => columns.contains cv.1 }

/-- Table creation, types-row persistence and row migration (the part of
the build tail before `finishTable`). -/
def createTableAndMigrate (st : DBState) (type_name : String)
    (old : Option (Nat × List (String × AttrSpec)))
    (attrs : List (String × AttrSpec)) (indexes : List (List String)) :
    Except DbErr DBState :=
  let table_name := "objects_" ++ type_name
  -- assert(attr_name not in RESERVED_ATTRIBUTES), raised while building
  -- create_stmt, before any statement is executed
  if attrs.any (fun a => RESERVED_ATTRIBUTES.contains a.1) then .error .schemaError
  else
    let columnsNew := matNames attrs
    let tid := match old with | some o => o.1 | Option.none => st.nextTypeId
    let st1 : DBState := { st with
      types := alistSet st.types type_name ⟨tid, attrs, indexes⟩,
      nextTypeId := match old with
        | some _ => st.nextTypeId
        | Option.none => st.nextTypeId + 1,
      log := st.log ++ [DbEvent.createTable (table_name ++ "_tmp") columnsNew,
                        DbEvent.insertTypesRow tid] }
    -- migrate rows from the old table, per old materialized column name
    match old with
    | some o =>
      let columnsOld := matNames o.2
      -- INSERT INTO <tmp> (columnsOld) SELECT columnsOld fails in the
      -- engine if the new table lacks one of the old columns
      if !(columnsOld.all columnsNew.contains) then .error .sqlError
      else
        let oldTable := (alistGet st1.tables table_name).getD ⟨1, [], false⟩
        let migrated := oldTable.rows.map (restrictRow columnsOld)
        let st2 : DBState := { st1 with log := st1.log ++ [DbEvent.dropTable table_name] }
        .ok (finishTable st2 type_name attrs indexes migrated)
    | Option.none => .ok (finishTable st1 type_name attrs indexes [])

/-- `register_object_type_attrs`. -/
def registerObjectTypeAttrs (st : DBState) (type_name : String)
    (indexes : List (List String)) (attrs : List (String × AttrSpec)) :
    Except DbErr DBState :=
  if indexes.isEmpty && attrs.isEmpty then .error .valueError
  else
    match alistGet st.types type_name with
    | some cur =>
      -- existing type: diff the given attributes against the current ones
      let new_attrs := attrs.filter fun a => alistGet cur.attrs a.1 ≠ some a.2
      let table_needs_rebuild := new_attrs.any fun a => a.2.2 ≠ 0
      if new_attrs.isEmpty then .ok st   -- not changed: plain return
      else
        let merged := alistUpdate cur.attrs new_attrs
        let new_indexes := (indexes.filter fun i => !cur.idx.contains i).dedup
        let indexesU := cur.idx ++ new_indexes
        match checkIndexes indexesU merged with
        | some e => .error e
        | Option.none =>
          if !table_needs_rebuild then
            -- only pickled attributes or new indexes: update metadata only
            let st :=
              if !new_attrs.isEmpty then
                { st with
                  types := alistSet st.types type_name ⟨cur.id, merged, cur.idx⟩,
                  log := st.log ++ [DbEvent.updateTypesAttrs cur.id] }
              else st
            let st :=
              if !new_indexes.isEmpty then
                { st with
                  types := alistSet st.types type_name ⟨cur.id, merged, indexesU⟩,
                  log := st.log ++
                    (new_indexes.map fun cols => DbEvent.createIndex
                      ("objects_" ++ type_name ++ "_" ++
                        String.intercalate "_" cols ++ "_idx")) ++
                    [DbEvent.updateTypesIdx cur.id] }
              else st
            .ok st
          else
            createTableAndMigrate st type_name (some (cur.id, cur.attrs)) merged indexesU
    | Option.none =>
      -- new type: merge the implicit attributes over the given ones
      let merged := alistUpdate attrs implicitAttrs
      match checkIndexes indexes merged with
      | some e => .error e
      | Option.none => createTableAndMigrate st type_name Option.none merged indexes

/-! ### Inverted index maintenance -/

/-- `UPDATE words SET count=? WHERE id=?`. -/
def setWordCount (ws : List WordRow) (i : Nat) (c : ℤ) : List WordRow :=
  ws.map fun r => if r.id = i then { r with count := c } else r

/-- The `delete_words_map` trigger: `UPDATE words SET count=count-1 WHERE
id=old.word_id`, fired once per deleted `words_map` row. -/
def decWordCount (ws : List WordRow) (i : Nat) : List WordRow :=
  ws.map fun r => if r.id = i then { r with count := r.count - 1 } else r

/-- One iteration of the word loop in `_add_object_keywords`: against the
pre-read `db_words_count`, insert a brand-new word with count 1
immediately, or queue a `count+1` update for an existing word; either way
queue one posting `(int(score*10), word_id, type, id, score)`. -/
def aokStep (pre : List WordRow) (type_id object_id : Nat)
    (acc : DBState × List (ℤ × Nat) × List Posting) (ws : String × ℚ) :
    DBState × List (ℤ × Nat) × List Posting :=
  match acc with
  | (s, update_list, map_list) =>
    match pre.find? (fun r => r.word == ws.1) with
    | Option.none =>
      ({ s with words := s.words ++ [⟨s.nextWordId, ws.1, 1⟩],
                nextWordId := s.nextWordId + 1 },
       update_list,
       map_list ++ [⟨rankOfScoreSq ws.2, s.nextWordId, type_id, object_id, ws.2⟩])
    | some r =>
      (s, update_list ++ [(r.count + 1, r.id)],
       map_list ++ [⟨rankOfScoreSq ws.2, r.id, type_id, object_id, ws.2⟩])

/-- `_add_object_keywords` (resumed): run `aokStep` over the scored words
starting from the pre-read `db_words_count`, then apply the queued count
updates and insert the postings. -/
def addObjectKeywords (st : DBState) (type_id object_id : Nat)
    (words : List (String × ℚ)) : DBState :=
  match words.foldl
      (aokStep (st.words.filter fun r => (words.map (·.1)).contains r.word)
        type_id object_id)
      (st, [], []) with
  | (s1, update_list, map_list) =>
    let s2 := { s1 with
      words := update_list.foldl (fun ws (ci : ℤ × Nat) => setWordCount ws ci.2 ci.1)
        s1.words }
    { s2 with words_map := s2.words_map ++ map_list }

/-- `DELETE FROM words_map WHERE object_type=? AND object_id IN (...)`,
with the `delete_words_map` trigger decrementing each affected word's
count once per deleted row. -/
def deleteObjectsKeywordsOne (st : DBState) (tid : Nat) (ids : List Nat) : DBState :=
  let hit := fun (p : Posting) => p.object_type == tid && ids.contains p.object_id
  { st with
    words_map := st.words_map.filter fun p => !hit p,
    words := (st.words_map.filter hit).foldl
      (fun ws p => decWordCount ws p.word_id) st.words }

/-- `_delete_multiple_objects_keywords`: per entry resolve the type name
(a `KeyError` aborts with the earlier deletions kept) and delete the
postings of the listed objects. -/
def deleteMultipleObjectsKeywords (st : DBState) :
    List (String × List Nat) → DBState × Option DbErr
  | [] => (st, Option.none)
  | (tname, ids) :: rest =>
    match alistGet st.types tname with
    | Option.none => (st, some .keyError)
    | some info =>
      deleteMultipleObjectsKeywords (deleteObjectsKeywordsOne st info.id ids) rest

/-! ### Deleting objects (with the cascade over children) -/

/-- One batch step of the loop in `_delete_multiple_objects`: delete the
rows of one type (firing that table's `delete_object_<type>` trigger per
row), and record the children of the deleted ids found in every registered
type into `child_objects` — by dict assignment, so a later batch whose
children live in the same type overwrites an earlier batch's entry. -/
def deleteBatchStep (acc : DBState × Nat × List (String × List Nat) × Option DbErr)
    (batch : String × List Nat) :
    DBState × Nat × List (String × List Nat) × Option DbErr :=
  match acc with
  | (s, count, children, some e) => (s, count, children, some e)
  | (s, count, children, Option.none) =>
    match alistGet s.types batch.1 with
    | Option.none => (s, count, children, some DbErr.keyError)
    | some info =>
      if batch.2.isEmpty then (s, count, children, Option.none)
      else
        let tname := "objects_" ++ batch.1
        let td := (alistGet s.tables tname).getD ⟨1, [], false⟩
        let delRows := td.rows.filter fun r => batch.2.contains r.id
        let s := { s with
          tables := alistSet s.tables tname
            { td with rows := td.rows.filter fun r => !batch.2.contains r.id },
          kwObjCount := if td.hasKwTrigger then s.kwObjCount - delRows.length
                        else s.kwObjCount }
        let children := s.types.foldl
          (fun ch tp =>
            let ctd := (alistGet s.tables ("objects_" ++ tp.1)).getD ⟨1, [], false⟩
            let childIds := (ctd.rows.filter fun r =>
              (match alistGet r.cols "parent_id" with
               | some (Value.vint p) => batch.2.any fun i => (i : ℤ) = p
               | _ => false) &&
              (alistGet r.cols "parent_type" == some (Value.vint info.id)))
              |>.map (·.id)
            if childIds.isEmpty then ch else alistSet ch tp.1 childIds)
          children
        (s, count + delRows.length, children, Option.none)

/-- `_delete_multiple_objects`: retract the postings of the given objects,
delete their rows counting `cursor.rowcount` per batch, then recurse on
the recorded children.  `fuel` bounds the recursion depth of the model
(each recursion deletes at least one live row in the source, so any fuel
above the total row count is enough). -/
def deleteMultipleObjects (st : DBState) (objects : List (String × List Nat)) :
    Nat → DBState × Nat × Option DbErr
  | 0 => (st, 0, some .fuel)
  | fuel + 1 =>
    match deleteMultipleObjectsKeywords st objects with
    | (s, some e) => (s, 0, some e)
    | (s, Option.none) =>
      match objects.foldl deleteBatchStep (s, 0, [], Option.none) with
      | (s, count, _, some e) => (s, count, some e)
      | (s, count, children, Option.none) =>
        if children.isEmpty then (s, count, Option.none)
        else
          match deleteMultipleObjects s children fuel with
          | (s2, c2, err) => (s2, count + c2, err)

/-! ### `_make_query_from_attrs`, `add_object`, `update_object` -/

/-- Delete a key from an association list (Python `del`). -/
def alistErase {α β : Type} [DecidableEq α] (l : List (α × β)) (k : α) :
    List (α × β) :=
  l.filter fun kv => kv.1 ≠ k

/-- Python `int(q)` for a float holding an exact rational: truncation
toward zero. -/
def truncQ (q : ℚ) : ℤ := if 0 ≤ q then ⌊q⌋ else ⌈q⌉

/-- Numeric coercion of `_make_query_from_attrs`: when both the declared
type and the value are numeric, convert the value to the declared type. -/
def coerceNumeric (ty : PyType) (v : Value) : Value :=
  match ty, v with
  | .int, .vflt q => .vint (truncQ q)
  | .float, .vint z => .vflt (z : ℚ)
  | _, _ => v

/-- Is the value a Python `int`/`long`/`float`? -/
def Value.isNumeric : Value → Bool
  | .vint _ => true
  | .vflt _ => true
  | _ => false

/-- Is the value a `basestring` (`str` or `unicode`)? -/
def Value.isString : Value → Bool
  | .vstr _ => true
  | .vuni _ => true
  | _ => false

/-- Lower-case a string value, preserving its constructor. -/
def Value.toLowerV : Value → Value
  | .vstr s => .vstr (lowerStr s)
  | .vuni s => .vuni (lowerStr s)
  | .vbuf s => .vbuf (lowerStr s)
  | v => v

/-- `_make_query_from_attrs`: drop `None`-valued keys (mutating the
caller's dict in the source — callers re-filter accordingly), then move
every nonzero-flag attribute present in `attrs` into the column list,
coercing numerics, lower-casing `ATTR_INDEXED_IGNORE_CASE` strings while
stashing the true-case value under a `__`-prefixed shadow key, enforcing
the declared type, and wrapping `str` values as buffers; whatever remains
becomes the pickle.  Returns `(columns, remaining pickle dict)`. -/
def makeQueryFromAttrs (type_attrs : List (String × AttrSpec))
    (attrs0 : List (String × Value)) :
    Except DbErr (List (String × Value) × List (String × Value)) :=
  let attrs := attrs0.filter fun kv => kv.2 ≠ Value.none
  let res := type_attrs.foldl
    (fun (acc : Except DbErr (List (String × Value) × List (String × Value))) ta =>
      match acc with
      | .error e => .error e
      | .ok (columns, attrs_copy) =>
        match ta with
        | (name, (attr_type, flags)) =>
          match alistGet attrs name with
          | Option.none => .ok (columns, attrs_copy)
          | some value0 =>
            if flags = ATTR_SIMPLE then .ok (columns, attrs_copy)
            else
              let vc :=
                if value0.isNumeric &&
                   (attr_type == PyType.int || attr_type == PyType.float) then
                  (coerceNumeric attr_type value0, attrs_copy)
                else if value0.isString &&
                   flags &&& ATTR_INDEXED_IGNORE_CASE == ATTR_INDEXED_IGNORE_CASE then
                  (value0.toLowerV, alistSet attrs_copy ("__" ++ name) value0)
                else (value0, attrs_copy)
              match vc with
              | (value, attrs_copy) =>
                if value.pyType ≠ some attr_type then .error .valueError
                else
                  let value := match value with
                    | .vstr s => Value.vbuf s
                    | v => v
                  .ok (columns ++ [(name, value)], alistErase attrs_copy name))
    (.ok ([], attrs))
  res

/-- `add_object`: resolve the type, fold the parent reference into the
attribute dict, insert the row built by `_make_query_from_attrs`, score
and index the keyword attributes (with weight 1.0), and increment
`keywords_objectcount` when the type has a keyword attribute.  Returns the
possibly-partial state, the new row id when the insert happened, and the
error if one was raised. -/
def addObject (st : DBState) (object_type : String)
    (parent : Option (String × Nat)) (attrs0 : List (String × Value)) :
    DBState × Option Nat × Option DbErr :=
  match alistGet st.types object_type with
  | Option.none => (st, Option.none, some .keyError)
  | some info =>
    let pt := match parent with
      | Option.none => Except.ok attrs0
      | some (ptype, pid) =>
        match alistGet st.types ptype with
        | Option.none => Except.error DbErr.keyError
        | some pinfo =>
          Except.ok (alistSet (alistSet attrs0 "parent_type" (Value.vint pinfo.id))
            "parent_id" (Value.vint pid))
    match pt with
    | .error e => (st, Option.none, some e)
    | .ok attrs =>
      match makeQueryFromAttrs info.attrs attrs with
      | .error e => (st, Option.none, some e)
      | .ok (columns, pickle) =>
        let tname := "objects_" ++ object_type
        let td := (alistGet st.tables tname).getD ⟨1, [], false⟩
        let newId := td.nextId
        let row : ObjRow := ⟨newId, columns, pickle⟩
        let td2 : TableData := { td with rows := td.rows ++ [row], nextId := newId + 1 }
        let st := { st with tables := alistSet st.tables tname td2 }
        -- the source's _make_query_from_attrs deleted None values from the
        -- caller's attrs dict in place
        let attrs := attrs.filter fun kv => kv.2 ≠ Value.none
        let word_parts := info.attrs.filterMap fun ta =>
          match alistGet attrs ta.1 with
          | some v => if ta.2.2 &&& ATTR_KEYWORDS ≠ 0 then some (v, (1 : ℚ))
                      else Option.none
          | Option.none => Option.none
        match scoreWords word_parts with
        | .error e => (st, some newId, some e)
        | .ok words =>
          let st := addObjectKeywords st info.id newId words
          let st :=
            if typeHasKeywordAttr st.types object_type then
              { st with kwObjCount := st.kwObjCount + 1 }
            else st
          (st, some newId, Option.none)

/-- `update_object`: load the row (pickle plus, when a keyword attribute
is among the updates, all keyword columns), merge the given attributes
over the stored pickle, apply the UPDATE built by
`_make_query_from_attrs`, and if a keyword attribute was updated retract
the object's postings and reindex from the merged keyword-attribute
values. -/
def updateObject (st : DBState) (object_type : String) (object_id : Nat)
    (parent : Option (String × Nat)) (attrs0 : List (String × Value)) :
    DBState × Option DbErr :=
  match alistGet st.types object_type with
  | Option.none => (st, some .keyError)
  | some info =>
    let keyword_columns := (info.attrs.filter fun ta =>
      ta.2.2 &&& ATTR_KEYWORDS ≠ 0).map (·.1)
    let needs_reindex := keyword_columns.any fun n => (alistGet attrs0 n).isSome
    let tname := "objects_" ++ object_type
    let td := (alistGet st.tables tname).getD ⟨1, [], false⟩
    match td.rows.find? (fun r => r.id == object_id) with
    | Option.none => (st, some .schemaError)   -- assert(row)
    | some row =>
      let merged := if row.pickle ≠ [] then alistUpdate row.pickle attrs0 else attrs0
      let pt := match parent with
        | Option.none => Except.ok merged
        | some (ptype, pid) =>
          match alistGet st.types ptype with
          | Option.none => Except.error DbErr.keyError
          | some pinfo =>
            Except.ok (alistSet (alistSet merged "parent_type" (Value.vint pinfo.id))
              "parent_id" (Value.vint pid))
      match pt with
      | .error e => (st, some e)
      | .ok attrs =>
        match makeQueryFromAttrs info.attrs attrs with
        | .error e => (st, some e)
        | .ok (columns, pickle) =>
          let row2 : ObjRow := { row with
            cols := alistUpdate row.cols columns,
            pickle := if pickle ≠ [] then pickle else row.pickle }
          let td2 : TableData := { td with rows := td.rows.map fun r =>
            if r.id == object_id then row2 else r }
          let st := { st with tables := alistSet st.tables tname td2 }
          if !needs_reindex then (st, Option.none)
          else
            -- merge the remaining keyword columns from the pre-update row
            let attrs := attrs.filter fun kv => kv.2 ≠ Value.none
            let attrs := keyword_columns.foldl
              (fun a n =>
                if (alistGet a n).isSome then a
                else alistSet a n ((alistGet row.cols n).getD Value.none))
              attrs
            let st := (deleteMultipleObjectsKeywords st
              [(object_type, [object_id])]).1
            let word_parts := info.attrs.filterMap fun ta =>
              if ta.2.2 &&& ATTR_KEYWORDS ≠ 0 then
                let v := (alistGet attrs ta.1).getD Value.none
                let v := match ta.2.1, v with
                  | PyType.str, Value.vbuf s => Value.vstr s
                  | _, v => v
                some (v, (1 : ℚ))
              else Option.none
            match scoreWords word_parts with
            | .error e => (st, some e)
            | .ok words => (addObjectKeywords st info.id object_id words, Option.none)

/-- `delete_object`: cascade-delete one object. -/
def deleteObject (st : DBState) (object_type : String) (object_id : Nat)
    (fuel : Nat) : DBState × Nat × Option DbErr :=
  deleteMultipleObjects st [(object_type, [object_id])] fuel

/-! ### `query` and `delete_by_query`

The model covers the call shapes the claims exercise: an optional explicit
`type`, an optional `limit`, and plain attribute-value constraints (the
default `QExpr("=", value)` comparator).  The `keywords`, `object`,
`parent`, `attrs` and `distinct` kwargs are not passed by any claim; with
them absent the source sets `kw_results = None`, `parents = []`,
`requested_columns = None` and `query_type = "ALL"`, which is the path
modelled here (`delete_by_query`'s `attrs=["id"]` projection only narrows
the selected columns and cannot fail, since `id` is materialized for every
registered type). -/

/-- One result row of `query`: the type name column plus the object row
(the model returns all materialized columns). -/
structure QRow where
  type_name : String
  row : ObjRow
  deriving DecidableEq, Repr

/-- Python `unicode.isdigit()`-and-nonempty, at its ASCII meaning. -/
def isDigitStr (s : String) : Bool := !s.isEmpty && s.toList.all Char.isDigit

/-- Parse a digit string as a natural number. -/
def digitsToNat (s : String) : Nat :=
  s.toList.foldl (fun n c => n * 10 + (c.toNat - '0'.toNat)) 0

/-- Attribute-constraint compilation in `query` for the default `=`
comparator: numeric/digit-string coercion to the declared type, the
declared-type check, `IGNORE_CASE` lower-casing (with `lower()` applied to
the column instead when the column is not `ATTR_INDEXED`), and the
str-to-buffer wrap.  Returns the row predicate. -/
def evalConstraint (info : TypeInfo) (c : String × Value) :
    Except DbErr (ObjRow → Bool) :=
  match alistGet info.attrs c.1 with
  | Option.none => .error .valueError   -- unreachable: callers skip first
  | some (attr_type, flags) =>
    let operand := c.2
    let operand :=
      if (attr_type == PyType.int || attr_type == PyType.float) &&
         (operand.isNumeric ||
          (operand.isString &&
            (match operand with
             | .vstr s => isDigitStr s
             | .vuni s => isDigitStr s
             | _ => false))) then
        match attr_type, operand with
        | .int, .vstr s => .vint (digitsToNat s)
        | .int, .vuni s => .vint (digitsToNat s)
        | .float, .vstr s => .vflt (digitsToNat s)
        | .float, .vuni s => .vflt (digitsToNat s)
        | _, _ => coerceNumeric attr_type operand
      else operand
    if operand.pyType ≠ some attr_type then .error .valueError
    else
      let lc := operand.isString && flags &&& ATTR_IGNORE_CASE ≠ 0
      let operand := if lc then operand.toLowerV else operand
      let lowerCol := lc && flags &&& ATTR_INDEXED = 0
      let operand := match operand with
        | .vstr s => Value.vbuf s
        | v => v
      .ok fun row =>
        match alistGet row.cols c.1 with
        | Option.none => false    -- SQL NULL matches no equality
        | some cv => (if lowerCol then cv.toLowerV else cv) == operand

/-- The per-type loop body of `query` for one type: skip the type when a
constraint attribute is not one of its materialized columns, otherwise
filter its rows by all constraints (with the SQL `LIMIT`).  Returns
`none` for a skip. -/
def queryOneType (st : DBState) (tname : String) (info : TypeInfo)
    (result_limit : Option Nat) (constraints : List (String × Value)) :
    Option (Except DbErr (List QRow)) :=
  let all_columns := matNames info.attrs
  if constraints.any (fun c => !all_columns.contains c.1) then Option.none
  else
    some (do
      let preds ← constraints.mapM (evalConstraint info)
      let td := (alistGet st.tables ("objects_" ++ tname)).getD ⟨1, [], false⟩
      let rows := td.rows.filter fun r => preds.all fun p => p r
      let rows := match result_limit with
        | some l => rows.take l
        | Option.none => rows
      return rows.map fun r => ⟨tname, r⟩)

/-- `query`: resolve the explicit type (unknown type is a `ValueError`),
then run each type independently, extending the result list under the
limit bookkeeping of the source (`rows[:result_limit - len(results) + 1]`,
breaking out once one type returns a full page). -/
def query (st : DBState) (qtype : Option String) (result_limit : Option Nat)
    (constraints : List (String × Value)) : Except DbErr (List QRow) :=
  let tl : Except DbErr (List (String × TypeInfo)) :=
    match qtype with
    | some t =>
      match alistGet st.types t with
      | Option.none => .error .valueError
      | some info => .ok [(t, info)]
    | Option.none => .ok st.types
  match tl with
  | .error e => .error e
  | .ok type_list =>
    let step := fun (acc : Except DbErr (List QRow × Bool)) (ti : String × TypeInfo) =>
      match acc with
      | .error e => .error e
      | .ok (results, stop) =>
        if stop then .ok (results, stop)
        else
          match queryOneType st ti.1 ti.2 result_limit constraints with
          | Option.none => .ok (results, stop)
          | some (.error e) => .error e
          | some (.ok rows) =>
            match result_limit with
            | Option.none => .ok (results ++ rows, false)
            | some l =>
              .ok (results ++ rows.take (l + 1 - results.length),
                   rows.length == l)
    (type_list.foldl step (.ok ([], false))).map (·.1)

/-- `delete_by_query`: query the ids of the matching objects, group them
by type name, and cascade-delete them. -/
def deleteByQuery (st : DBState) (qtype : Option String) (lim : Option Nat)
    (constraints : List (String × Value)) (fuel : Nat) :
    DBState × Nat × Option DbErr :=
  match query st qtype lim constraints with
  | .error e => (st, 0, some e)
  | .ok results =>
    if results.isEmpty then (st, 0, Option.none)
    else
      let results_by_type := results.foldl
        (fun (acc : List (String × List Nat)) r =>
          match alistGet acc r.type_name with
          | Option.none => acc ++ [(r.type_name, [r.row.id])]
          | some ids => alistSet acc r.type_name (ids ++ [r.row.id]))
        []
      deleteMultipleObjects st results_by_type fuel

/-! ### Operation sequences -/

/-- The write operations of the public interface, for stating invariants
over arbitrary operation sequences. -/
inductive DbOp
  | register (type_name : String) (indexes : List (List String))
      (attrs : List (String × AttrSpec))
  | add (object_type : String) (parent : Option (String × Nat))
      (attrs : List (String × Value))
  | update (object_type : String) (object_id : Nat)
      (parent : Option (String × Nat)) (attrs : List (String × Value))
  | deleteObj (object_type : String) (object_id : Nat)
  | deleteByQ (qtype : Option String) (lim : Option Nat)
      (constraints : List (String × Value))

/-- Cascade fuel that always suffices: each cascade generation deletes at
least one live row, so the recursion depth is bounded by the row count. -/
def opFuel (st : DBState) : Nat :=
  (st.tables.map fun t => t.2.rows.length).foldl (· + ·) 0 + 1

/-- Apply one operation, keeping whatever (possibly partial) state it
produced.  A failed `register_object_type_attrs` is modelled as leaving
the state unchanged; its partial states touch only schema objects, never
the `words`/`words_map` tables. -/
def applyOp (st : DBState) : DbOp → DBState
  | .register t idx attrs =>
    match registerObjectTypeAttrs st t idx attrs with
    | .ok s => s
    | .error _ => st
  | .add t p a => (addObject st t p a).1
  | .update t i p a => (updateObject st t i p a).1
  | .deleteObj t i => (deleteObject st t i (opFuel st)).1
  | .deleteByQ qt l cs => (deleteByQuery st qt l cs (opFuel st)).1

/-- Run a sequence of operations from the fresh database. -/
def runOps (ops : List DbOp) : DBState := ops.foldl applyOp emptyState

/-! ### `_query_keywords` (the ranked search engine)

Scores inside the search are real numbers built from `math.log`; their
values influence nothing but the final ordering (all loop control depends
only on row counts and candidate-set sizes).  The model therefore keeps
each accumulated score as the list of its terms — `(word_id, freqSq)`
pairs, where the real value of a term is
`sqrt(freqSq) * (log(objectcount // count + 1) + order_weight)` for that
word — and takes the final comparison function as a parameter. -/

/-- Per-word search bookkeeping (`state[id]` in the source): one paging
offset and has-more flag per rank bucket 0..10, the cumulative fetched
count and the done flag. -/
structure WState where
  offset : List Nat
  more : List Bool
  count : Nat
  done : Bool
  deriving DecidableEq, Repr

/-- Per-word query info (`words[id]` in the source): the word row data,
the Python-2 integer quotient `objectcount / count` and the positional
`order_weight` entering `idf_t`, and the observed object-id dict keys. -/
structure WInfo where
  word : String
  count : ℤ
  oc_div_c : ℤ
  order_weight : ℤ
  ids : List Nat
  deriving DecidableEq, Repr

/-- Accumulated relevance of one candidate: the `(word_id, freqSq)` terms
summed into `all_results[r]`. -/
abbrev Score := List (Nat × ℚ)

/-- The mutable search context of `_query_keywords`. -/
structure SearchCtx where
  winfos : List (Nat × WInfo)
  states : List (Nat × WState)
  results : List (Nat × List ((Nat × Nat) × ℚ))
  all_results : List ((Nat × Nat) × Score)
  id_constraints : Option (List Nat)
  sql_limit : Nat
  finished : Bool
  deriving Repr

/-- Read the per-word state (defaulting never fires: ids are seeded). -/
def SearchCtx.stateOf (ctx : SearchCtx) (wid : Nat) : WState :=
  (alistGet ctx.states wid).getD ⟨List.replicate 11 0, List.replicate 11 true, 0, false⟩

/-- Read the per-word info. -/
def SearchCtx.infoOf (ctx : SearchCtx) (wid : Nat) : WInfo :=
  (alistGet ctx.winfos wid).getD ⟨"", 0, 0, 0, []⟩

/-- Read the per-word partial results dict. -/
def SearchCtx.resultsOf (ctx : SearchCtx) (wid : Nat) : List ((Nat × Nat) × ℚ) :=
  (alistGet ctx.results wid).getD []

/-- One page fetch for one word at one rank (the inner loop body over
`ids`): run the paged posting query, update `more`/`count`, merge the
fetched rows into the word's partial results and observed-id dict, and on
completion intersect the global id constraint with the observed ids. -/
def fetchStep (st : DBState) (object_type : Option Nat) (rank : Nat)
    (ctx : SearchCtx) (wid : Nat) : SearchCtx :=
  let ws := ctx.stateOf wid
  if !((ws.more.getD rank true) && !ws.done) then ctx
  else
    let base := st.words_map.filter fun p =>
      p.word_id == wid && p.rank == (rank : ℤ) &&
      (match object_type with
       | some ot => p.object_type == ot
       | Option.none => true) &&
      (match ctx.id_constraints with
       | some c => c.contains p.object_id
       | Option.none => true)
    let rows := (base.drop (ws.offset.getD rank 0)).take ctx.sql_limit
    let ws := { ws with
      more := ws.more.set rank (rows.length == ctx.sql_limit),
      count := ws.count + rows.length }
    let wres := rows.foldl
      (fun acc p => alistSet acc (p.object_type, p.object_id) p.freqSq)
      (ctx.resultsOf wid)
    let wi := ctx.infoOf wid
    let newIds := rows.foldl
      (fun ids p => if ids.contains p.object_id then ids else ids ++ [p.object_id])
      wi.ids
    let wi := { wi with ids := newIds }
    let doneNow := (wi.count ≤ (ws.count : ℤ)) ||
      (ctx.id_constraints.isSome &&
        rows.length == (ctx.id_constraints.getD []).length)
    let ws := { ws with done := ws.done || doneNow }
    let idc :=
      if doneNow then
        match ctx.id_constraints with
        | some c => some (c.filter wi.ids.contains)
        | Option.none => some wi.ids
      else ctx.id_constraints
    { ctx with
      states := alistSet ctx.states wid ws,
      results := alistSet ctx.results wid wres,
      winfos := alistSet ctx.winfos wid wi,
      id_constraints := idc }

/-- The per-rank tail: intersect all words' partial-result key sets, write
the weighted sums of the surviving candidates into `all_results`, and stop
everything once more than `2*limit` candidates have accumulated. -/
def rankTail (ids : List Nat) (limitv : ℤ) (ctx : SearchCtx) : SearchCtx :=
  let inter : List (Nat × Nat) := match ids with
    | [] => []
    | first :: rest =>
      rest.foldl
        (fun (acc : List (Nat × Nat)) wid =>
          acc.filter fun r => (ctx.resultsOf wid).any fun e => e.1 == r)
        ((ctx.resultsOf first).map fun e => e.1)
  let all := inter.foldl
    (fun acc r =>
      let score := ids.filterMap fun wid =>
        match alistGet (ctx.resultsOf wid) r with
        | some f => some (wid, f)
        | Option.none => Option.none
      alistSet acc r score)
    ctx.all_results
  let fin := 0 < limitv && (limitv * 2 < (all.length : ℤ))
  { ctx with all_results := all, finished := ctx.finished || fin }

/-- One full inner pass over the rank buckets 10 down to 0. -/
def rankPass (st : DBState) (object_type : Option Nat) (ids : List Nat)
    (limitv : ℤ) (ctx : SearchCtx) : SearchCtx :=
  (List.range 11).foldl
    (fun ctx i =>
      if ctx.finished then ctx
      else
        let rank := 10 - i
        rankTail ids limitv (ids.foldl (fetchStep st object_type rank) ctx))
    ctx

/-- The between-passes bookkeeping: assume finished, stop for good when
two adjacent words (in rarity order) share no candidate and neither has
any page left at any rank, otherwise advance the offsets of every word
with more pages and clear the finished flag. -/
def advancePass (ids : List Nat) (ctx : SearchCtx) : SearchCtx :=
  let ctx := { ctx with finished := true }
  let step := fun (acc : SearchCtx × Bool) (index : Nat) =>
    match acc with
    | (ctx, broke) =>
      if broke then (ctx, broke)
      else
        let wid := ids.getD index 0
        let pairEmpty :=
          if index > 0 then
            let prev := ids.getD (index - 1) 0
            let a := ctx.resultsOf prev
            let b := ctx.resultsOf wid
            if (a.filter fun r => b.any (·.1 == r.1)).isEmpty then
              let a_more := (ctx.stateOf prev).more.any id
              let b_more := (ctx.stateOf wid).more.any id
              !a_more && !b_more
            else false
          else false
        if pairEmpty then ({ ctx with finished := true }, true)
        else
          let ws := ctx.stateOf wid
          let res := (List.range 11).foldl
            (fun (acc2 : WState × Bool) i =>
              let rank := 10 - i
              if (acc2.1.more.getD rank true) && !acc2.1.done then
                ({ acc2.1 with
                   offset := acc2.1.offset.set rank
                     ((acc2.1.offset.getD rank 0) + ctx.sql_limit) }, true)
              else acc2)
            (ws, false)
          let ctx := { ctx with states := alistSet ctx.states wid res.1 }
          let ctx := if res.2 then { ctx with finished := false } else ctx
          (ctx, false)
  ((List.range ids.length).foldl step (ctx, false)).1

/-- The outer `while not finished` loop, fuelled. -/
def searchLoop (st : DBState) (object_type : Option Nat) (ids : List Nat)
    (limitv : ℤ) : Nat → SearchCtx → SearchCtx
  | 0, ctx => ctx
  | fuel + 1, ctx =>
    if ctx.finished then ctx
    else
      let ctx := rankPass st object_type ids limitv ctx
      if ctx.finished then ctx
      else
        let ctx := advancePass ids ctx
        searchLoop st object_type ids limitv fuel
          { ctx with sql_limit := ctx.sql_limit * 10 }

/-- `_query_keywords`: tokenize the phrase (lower-case, whitespace split,
drop short tokens and stop words), resolve the terms against the `words`
table ordered by ascending count, abort with `[]` when there are no terms,
when any resolved term has count 0, or when not every term resolved; then
run the ranked multi-pass search and emit candidates sorted by descending
score.  `scoreLe` stands for comparison of the real score values (see
`Score`); `fuel` bounds the outer loop. -/
def queryKeywords (st : DBState) (phrase : String) (limit : Option Nat)
    (object_type : Option String) (scoreLe : Score → Score → Bool)
    (fuel : Nat) : Except DbErr (List (Nat × Nat)) :=
  let objectcount : ℤ := st.kwObjCount
  let words := queryTerms phrase
  let nwords := words.length
  if nwords = 0 then .ok []
  else
    let rows := (st.words.filter fun r => words.contains r.word).mergeSort
      (fun a b => a.count ≤ b.count)
    if rows.any (fun r => r.count == 0) then .ok []
    else if rows.length < nwords then .ok []
    else
      let ot : Except DbErr (Option Nat) :=
        match object_type with
        | Option.none => .ok Option.none
        | some t =>
          match alistGet st.types t with
          | Option.none => .error .keyError
          | some info => .ok (some info.id)
      match ot with
      | .error e => .error e
      | .ok otid =>
        let ids := rows.map (·.id)
        let winfos := rows.map fun r =>
          (r.id, (⟨r.word, r.count, Int.fdiv objectcount r.count,
            1 + (nwords : ℤ) - ((words.indexOf r.word : Nat) : ℤ), []⟩ : WInfo))
        let states := ids.map fun i =>
          (i, (⟨List.replicate 11 0, List.replicate 11 true, 0, false⟩ : WState))
        let results := ids.map fun i => (i, ([] : List ((Nat × Nat) × ℚ)))
        let limitv : ℤ := match limit with
          | some l => (l : ℤ)
          | Option.none => objectcount
        let sql_limit := match limit with
          | some l => min (l * 3) 200
          | Option.none => min (objectcount.toNat * 3) 200
        let ctx : SearchCtx :=
          ⟨winfos, states, results, [], Option.none, sql_limit, false⟩
        let ctx := searchLoop st otid ids limitv fuel ctx
        let sorted := ctx.all_results.mergeSort fun a b => scoreLe b.2 a.2
        let keys := sorted.map (·.1)
        .ok (if 0 < limitv then keys.take limitv.toNat else keys)

/-! ## Theorems -/

/-! ### C8: query tokenization vs scorer tokenization -/

theorem runsByAux_congr (p q : Char → Bool) (cs : List Char)
    (h : ∀ c ∈ cs, p c = q c) (acc : List Char) :
    runsByAux p cs acc = runsByAux q cs acc := by
  induction cs generalizing acc with
  | nil => rfl
  | cons c cs ih =>
    have hc := h c (List.mem_cons_self c cs)
    have hrest : ∀ d ∈ cs, p d = q d := fun d hd => h d (List.mem_cons_of_mem c hd)
    simp only [runsByAux, hc]
    cases hq : q c with
    | true => simp only [if_true, ih hrest]
    | false =>
      simp only [Bool.false_eq_true, if_false]
      cases hAcc : acc.isEmpty with
      | true => simp only [if_true, ih hrest]
      | false => simp only [Bool.false_eq_true, if_false, ih hrest]

theorem runsByAux_chars (p : Char → Bool) (cs : List Char) (c : Char) :
    ∀ acc r, r ∈ runsByAux p cs acc → c ∈ r →
      (p c = true ∧ c ∈ cs) ∨ c ∈ acc := by
  induction cs with
  | nil =>
    intro acc r hr hc
    cases hAcc : acc.isEmpty with
    | true => simp [runsByAux, hAcc] at hr
    | false =>
      simp only [runsByAux, hAcc, Bool.false_eq_true, if_false,
        List.mem_singleton] at hr
      subst hr
      exact Or.inr (List.mem_reverse.mp hc)
  | cons d cs ih =>
    intro acc r hr hc
    simp only [runsByAux] at hr
    cases hd : p d with
    | true =>
      rw [hd] at hr
      simp only [if_true] at hr
      rcases ih _ _ hr hc with ⟨hp, hm⟩ | hm
      · exact Or.inl ⟨hp, List.mem_cons_of_mem d hm⟩
      · rcases List.mem_cons.mp hm with hcd | hm
        · rw [hcd]
          exact Or.inl ⟨hd, List.mem_cons_self d cs⟩
        · exact Or.inr hm
    | false =>
      rw [hd] at hr
      simp only [Bool.false_eq_true, if_false] at hr
      cases hAcc : acc.isEmpty with
      | true =>
        rw [hAcc] at hr
        simp only [if_true] at hr
        rcases ih _ _ hr hc with ⟨hp, hm⟩ | hm
        · exact Or.inl ⟨hp, List.mem_cons_of_mem d hm⟩
        · simp at hm
      | false =>
        rw [hAcc] at hr
        simp only [Bool.false_eq_true, if_false, List.mem_cons] at hr
        rcases hr with rfl | hr
        · exact Or.inr (List.mem_reverse.mp hc)
        · rcases ih _ _ hr hc with ⟨hp, hm⟩ | hm
          · exact Or.inl ⟨hp, List.mem_cons_of_mem d hm⟩
          · simp at hm

theorem filterMapEqFilter {α : Type} (l : List α) (f : α → Option α)
    (p : α → Bool) (h : ∀ w ∈ l, f w = if p w then some w else Option.none) :
    l.filterMap f = l.filter p := by
  induction l with
  | nil => rfl
  | cons w l ih =>
    have hw := h w (List.mem_cons_self w l)
    have hrest := fun v hv => h v (List.mem_cons_of_mem w hv)
    simp only [List.filterMap_cons, List.filter_cons, hw]
    cases hp : p w with
    | true => simp only [if_true, ih hrest]
    | false => simp only [Bool.false_eq_true, if_false, ih hrest]

/-- The character domain on which both tokenizations agree: lower-case
ASCII letters and the space character. -/
def lcLetters : List Char := "abcdefghijklmnopqrstuvwxyz ".toList

/-- C8 counterexample: on the phrase `"ab-cd"` the query tokenization
produces the single term `"ab-cd"` (whitespace split) while the scorer
tokenization produces `"ab"` and `"cd"` (non-letter split), so the two
token sets differ, refuting the claimed equality. -/
theorem claim_C8_counterexample :
    ¬ (∀ w : String, w ∈ queryTerms "ab-cd" ↔ w ∈ scorerTerms "ab-cd") := by
  intro h
  have e1 : queryTerms "ab-cd" = ["ab-cd"] := by decide
  have e2 : scorerTerms "ab-cd" = ["ab", "cd"] := by decide
  have h1 : ("ab-cd" : String) ∈ queryTerms "ab-cd" := by
    rw [e1]; exact List.mem_singleton.mpr rfl
  have h2 := (h "ab-cd").mp h1
  rw [e2] at h2
  rcases List.mem_cons.mp h2 with hc | hc
  · exact absurd hc (by decide)
  · rcases List.mem_cons.mp hc with hc | hc
    · exact absurd hc (by decide)
    · simp at hc

/-- C8 (amended): the keyword search tokenizes by lower-casing and
whitespace-splitting the phrase and dropping short tokens and stop words —
it does not split on non-letter characters and applies no maximum length —
so the two tokenizations agree exactly on phrases made of lower-case ASCII
letters and spaces whose letter runs are at most `MAX_WORD_LENGTH` long;
on such phrases the query terms equal the scorer's tokens, listwise. -/
theorem claim_C8_tokenization_agree (phrase : String)
    (hchars : ∀ c ∈ phrase.toList, c ∈ lcLetters)
    (hlen : ∀ w ∈ wordRuns phrase, w.length ≤ MAX_WORD_LENGTH) :
    queryTerms phrase = scorerTerms phrase := by
  have hprops : ∀ c ∈ lcLetters,
      Char.toLower c = c ∧ ((!c.isWhitespace) = c.isAlpha) ∧ c ≠ '.' := by decide
  -- lower-casing the phrase is the identity on this domain
  have hmapid : phrase.toList.map Char.toLower = phrase.toList := by
    rw [List.map_congr_left (fun c hc => (hprops c (hchars c hc)).1)]
    exact List.map_id _
  have hlow : lowerStr phrase = phrase := by
    unfold lowerStr
    rw [hmapid]
    exact String.asString_toList phrase
  -- no dot, so no extension match
  have hext : hasExtMatch phrase = false := by
    unfold hasExtMatch
    simp only [List.any_eq_false]
    intro k _
    rcases hg : phrase.toList.reverse.get? k with _ | c
    · simp [hg]
    · have hcm : c ∈ phrase.toList := List.mem_reverse.mp (List.get?_mem hg)
      have hne : c ≠ '.' := (hprops c (hchars c hcm)).2.2
      simp [hg, hne]
  have hpt : partTokens phrase = wordRuns phrase := by
    unfold partTokens
    simp [hext]
  -- whitespace-splitting is letter-run splitting on this domain
  have hsplit : splitWS phrase = wordRuns phrase := by
    unfold splitWS wordRuns runsBy
    rw [runsByAux_congr _ _ _
      (fun c hc => (hprops c (hchars c hc)).2.1) []]
  -- every token is already lower-case
  have htok : ∀ w ∈ wordRuns phrase, lowerStr w = w := by
    intro w hw
    unfold wordRuns runsBy at hw
    obtain ⟨r, hr, rfl⟩ := List.mem_map.mp hw
    unfold lowerStr
    rw [List.toList_asString]
    congr 1
    rw [List.map_congr_left, List.map_id]
    intro c hc
    rcases runsByAux_chars _ _ c [] r hr hc with ⟨_, hm⟩ | hm
    · exact (hprops c (hchars c hm)).1
    · simp at hm
  unfold queryTerms
  rw [hlow, hsplit]
  unfold scorerTerms
  rw [hpt]
  refine (filterMapEqFilter _ _ _ ?_).symm
  intro w hw
  rw [htok w hw]
  have h30 : w.length ≤ MAX_WORD_LENGTH := hlen w hw
  have h30x : ¬ w.length > MAX_WORD_LENGTH := Nat.not_lt.mpr h30
  by_cases hmin : w.length < MIN_WORD_LENGTH
  · have hminle : ¬ MIN_WORD_LENGTH ≤ w.length := Nat.not_le.mpr hmin
    by_cases hemp : w.isEmpty
    · simp [hemp, hminle]
    · simp [hemp, h30x, hmin, hminle]
  · have hemp : ¬ (w.isEmpty = true) := by
      intro he
      have hw0 : w = "" := (String.isEmpty_iff w).mp he
      rw [hw0] at hmin
      exact hmin (by decide)
    have hminle : MIN_WORD_LENGTH ≤ w.length := Nat.le_of_not_lt hmin
    by_cases hstop : STOP_WORDS.contains w = true
    · simp [hemp, h30x, hmin, hstop, hminle]
    · simp [hemp, h30x, hmin, hstop, hminle]

/-- C8 witness: the amended agreement instantiated on the phrase
`"hello world"`. -/
theorem claim_C8_tokenization_agree_witness :
    (∀ c ∈ ("hello world" : String).toList, c ∈ lcLetters) ∧
    (∀ w ∈ wordRuns "hello world", w.length ≤ MAX_WORD_LENGTH) ∧
    queryTerms "hello world" = scorerTerms "hello world" :=
  ⟨by decide, by decide,
   claim_C8_tokenization_agree "hello world" (by decide) (by decide)⟩

/-! ### C10: totality of the scorer -/

theorem alistSet_ne_nil {α β : Type} [DecidableEq α] (l : List (α × β))
    (k : α) (v : β) : alistSet l k v ≠ [] := by
  cases l with
  | nil => simp [alistSet]
  | cons x xs =>
    rcases x with ⟨a, b⟩
    simp only [alistSet]
    split <;> simp

theorem addTok_acc (coeff : ℚ) (acc : List (String × ℚ) × Nat) (w : String)
    (h : acc.1 ≠ [] ↔ 0 < acc.2) :
    (addTok coeff acc w).1 ≠ [] ↔ 0 < (addTok coeff acc w).2 := by
  unfold addTok
  split
  · exact h
  · split
    · exact h
    · split
      · simp
      · simpa using alistSet_ne_nil acc.1 _ _

theorem foldTok_acc (coeff : ℚ) (toks : List String)
    (acc : List (String × ℚ) × Nat) (h : acc.1 ≠ [] ↔ 0 < acc.2) :
    (toks.foldl (addTok coeff) acc).1 ≠ [] ↔
      0 < (toks.foldl (addTok coeff) acc).2 := by
  induction toks generalizing acc with
  | nil => exact h
  | cons t toks ih => exact ih _ (addTok_acc coeff acc t h)

theorem scoreAccum_strings (parts : List (Value × ℚ))
    (hstr : ∀ p ∈ parts, (p.1).isString = true ∨ (p.1).isFalsy = true) :
    ∀ acc, (acc.1 ≠ [] ↔ 0 < acc.2) →
      ∃ res, scoreAccum parts acc = .ok res ∧ (res.1 ≠ [] ↔ 0 < res.2) := by
  induction parts with
  | nil => exact fun acc h => ⟨acc, rfl, h⟩
  | cons p parts ih =>
    intro acc h
    have hrest := fun q hq => hstr q (List.mem_cons_of_mem p hq)
    rcases p with ⟨v, coeff⟩
    by_cases hf : v.isFalsy = true
    · simpa [scoreAccum, hf] using ih hrest acc h
    · have hs : v.isString = true := by
        rcases hstr (v, coeff) (List.mem_cons_self _ _) with h1 | h1
        · exact h1
        · exact absurd h1 hf
      have ht : ∃ s, v.textOf = some s := by
        cases v <;> simp_all [Value.isString, Value.textOf]
      rcases ht with ⟨s, hts⟩
      simp only [scoreAccum, hf, Bool.false_eq_true, if_false, hts]
      exact ih hrest _ (foldTok_acc coeff (partTokens s) acc h)

/-- C10: on string-valued parts the scorer is total — the accumulation
never fails, the token map it builds is non-empty exactly when the total
token count is positive (so `sqrt(sum/total)` never divides by zero), and
when no part yields a valid token `_score_words` returns the empty map
without error. -/
theorem claim_C10_scorer_total (parts : List (Value × ℚ))
    (hstr : ∀ p ∈ parts, (p.1).isString = true ∨ (p.1).isFalsy = true) :
    ∃ ws total, scoreAccum parts ([], 0) = .ok (ws, total) ∧
      (ws ≠ [] ↔ 0 < total) ∧
      (ws = [] → scoreWords parts = .ok []) := by
  rcases scoreAccum_strings parts hstr ([], 0) (by simp) with ⟨⟨ws, total⟩, hok, hiff⟩
  refine ⟨ws, total, hok, hiff, fun hnil => ?_⟩
  unfold scoreWords
  rw [hok]
  simp [hnil]

/-- C10 witness: the totality statement instantiated on one concrete
two-token part. -/
theorem claim_C10_scorer_total_witness :
    (∀ p ∈ [(Value.vuni "hi there", (1 : ℚ))],
      (p.1).isString = true ∨ (p.1).isFalsy = true) ∧
    (∃ ws total,
      scoreAccum [(Value.vuni "hi there", (1 : ℚ))] ([], 0) = .ok (ws, total) ∧
      (ws ≠ [] ↔ 0 < total) ∧
      (ws = [] → scoreWords [(Value.vuni "hi there", (1 : ℚ))] = .ok [])) :=
  ⟨by decide, claim_C10_scorer_total _ (by decide)⟩

/-! ### C3: stored ranks -/

theorem alistGet_mem {α β : Type} [DecidableEq α] (l : List (α × β)) (k : α)
    (v : β) (h : alistGet l k = some v) : (k, v) ∈ l := by
  induction l with
  | nil => simp [alistGet] at h
  | cons x xs ih =>
    rcases x with ⟨a, b⟩
    simp only [alistGet] at h
    by_cases hk : k = a
    · rw [if_pos hk] at h
      subst hk
      cases h
      exact List.mem_cons_self _ _
    · rw [if_neg hk] at h
      exact List.mem_cons_of_mem _ (ih h)

theorem mem_alistSet {α β : Type} [DecidableEq α] (l : List (α × β)) (k : α)
    (v : β) (x : α × β) (h : x ∈ alistSet l k v) : x = (k, v) ∨ x ∈ l := by
  induction l with
  | nil => simpa [alistSet] using h
  | cons y ys ih =>
    rcases y with ⟨a, b⟩
    simp only [alistSet] at h
    by_cases hk : k = a
    · rw [if_pos hk] at h
      rcases List.mem_cons.mp h with rfl | hm
      · exact Or.inl (by rw [hk])
      · exact Or.inr (List.mem_cons_of_mem _ hm)
    · rw [if_neg hk] at h
      rcases List.mem_cons.mp h with rfl | hm
      · exact Or.inr (List.mem_cons_self _ _)
      · rcases ih hm with h1 | h1
        · exact Or.inl h1
        · exact Or.inr (List.mem_cons_of_mem _ h1)

/-- The accumulation invariant for coefficient-1 scoring: every
accumulated coefficient sum is at least 1 and at most the total token
count. -/
def accBounded (acc : List (String × ℚ) × Nat) : Prop :=
  ∀ p ∈ acc.1, 1 ≤ p.2 ∧ p.2 ≤ (acc.2 : ℚ)

theorem addTok_bounded (acc : List (String × ℚ) × Nat) (w : String)
    (h : accBounded acc) : accBounded (addTok 1 acc w) := by
  unfold addTok
  split
  · exact h
  · split
    · exact h
    · split
      · rename_i hget
        intro p hp
        rcases List.mem_append.mp hp with hm | hm
        · rcases h p hm with ⟨h1, h2⟩
          refine ⟨h1, le_trans h2 ?_⟩
          push_cast
          linarith
        · rcases List.mem_singleton.mp hm with rfl
          refine ⟨le_refl 1, ?_⟩
          push_cast
          have : (0 : ℚ) ≤ acc.2 := by positivity
          linarith
      · rename_i s hget
        intro p hp
        rcases mem_alistSet _ _ _ _ hp with rfl | hm
        · rcases h _ (alistGet_mem _ _ _ hget) with ⟨h1, h2⟩
          dsimp only at h1 h2 ⊢
          constructor
          · linarith
          · push_cast
            linarith
        · rcases h p hm with ⟨h1, h2⟩
          refine ⟨h1, le_trans h2 ?_⟩
          push_cast
          linarith

theorem foldTok_bounded (toks : List String) (acc : List (String × ℚ) × Nat)
    (h : accBounded acc) : accBounded (toks.foldl (addTok 1) acc) := by
  induction toks generalizing acc with
  | nil => exact h
  | cons t toks ih => exact ih _ (addTok_bounded acc t h)

theorem scoreAccum_bounded (parts : List (Value × ℚ))
    (hcoeff : ∀ p ∈ parts, p.2 = 1) :
    ∀ acc res, scoreAccum parts acc = .ok res → accBounded acc → accBounded res := by
  induction parts with
  | nil =>
    intro acc res hok h
    cases hok
    exact h
  | cons p parts ih =>
    intro acc res hok h
    have hrest := fun q hq => hcoeff q (List.mem_cons_of_mem p hq)
    rcases p with ⟨v, coeff⟩
    have hc1 : coeff = 1 := hcoeff (v, coeff) (List.mem_cons_self _ _)
    subst hc1
    simp only [scoreAccum] at hok
    by_cases hf : v.isFalsy = true
    · rw [if_pos hf] at hok
      exact ih hrest _ _ hok h
    · rw [if_neg hf] at hok
      rcases ht : v.textOf with _ | s
      · rw [ht] at hok
        cases hok
      · rw [ht] at hok
        exact ih hrest _ _ hok (foldTok_bounded _ _ h)

/-- Scores emitted by `_score_words` with coefficient 1 lie in `(0, 1]`
(as exact radicands: `0 < q ≤ 1`). -/
theorem scoreWords_bounds (parts : List (Value × ℚ)) (ws : List (String × ℚ))
    (hcoeff : ∀ p ∈ parts, p.2 = 1) (hok : scoreWords parts = .ok ws) :
    ∀ p ∈ ws, 0 < p.2 ∧ p.2 ≤ 1 := by
  unfold scoreWords at hok
  rcases hacc : scoreAccum parts ([], 0) with e | ⟨l, total⟩
  · rw [hacc] at hok
    cases hok
  · rw [hacc] at hok
    simp only [Except.ok.injEq] at hok
    have hbound : accBounded (l, total) :=
      scoreAccum_bounded parts hcoeff _ _ hacc (by intro p hp; simp at hp)
    subst hok
    intro p hp
    rcases List.mem_map.mp hp with ⟨⟨w, s⟩, hm, rfl⟩
    rcases hbound _ hm with ⟨h1, h2⟩
    have htpos : (0 : ℚ) < (total : ℚ) := lt_of_lt_of_le zero_lt_one (le_trans h1 h2)
    constructor
    · exact div_pos (lt_of_lt_of_le zero_lt_one h1) htpos
    · rw [div_le_one htpos]
      exact h2

/-- The stored rank `int(score*10)` computed by `rankOfScoreSq` equals the
real floor `⌊10·√q⌋` for every `q ≥ 0`. -/
theorem rankOfScoreSq_eq_floor (q : ℚ) (hq : 0 ≤ q) :
    rankOfScoreSq q = ⌊(10 : ℝ) * Real.sqrt (q : ℝ)⌋ := by
  have hd0 : (0 : ℝ) < (q.den : ℝ) := by
    exact_mod_cast q.pos
  have hnum : ((q.num.toNat : ℕ) : ℝ) = ((q.num : ℤ) : ℝ) := by
    exact_mod_cast congrArg (fun z : ℤ => (z : ℝ))
      (Int.toNat_of_nonneg (Rat.num_nonneg.mpr hq))
  -- (q : ℝ) as a quotient of naturals
  have hqcast : (q : ℝ) = ((q.num.toNat : ℕ) : ℝ) / ((q.den : ℕ) : ℝ) := by
    rw [Rat.cast_def, hnum]
  -- 10·√q = √(100·num·den) / den
  have hsq : (10 : ℝ) * Real.sqrt (q : ℝ) =
      Real.sqrt ((100 * q.num.toNat * q.den : ℕ) : ℝ) / ((q.den : ℕ) : ℝ) := by
    rw [hqcast]
    have e0 : ((q.num.toNat : ℕ) : ℝ) / ((q.den : ℕ) : ℝ) =
        ((q.num.toNat * q.den : ℕ) : ℝ) / ((q.den : ℕ) : ℝ) ^ 2 := by
      push_cast
      field_simp
      ring
    rw [e0, Real.sqrt_div (by positivity), Real.sqrt_sq hd0.le]
    have e1 : ((100 * q.num.toNat * q.den : ℕ) : ℝ) =
        100 * ((q.num.toNat * q.den : ℕ) : ℝ) := by
      push_cast
      ring
    rw [e1, Real.sqrt_mul (by norm_num),
      show (100 : ℝ) = 10 ^ 2 by norm_num, Real.sqrt_sq (by norm_num)]
    ring
  rw [hsq]
  -- floor of the quotient
  have hnn : (0 : ℝ) ≤ Real.sqrt ((100 * q.num.toNat * q.den : ℕ) : ℝ) /
      ((q.den : ℕ) : ℝ) := by positivity
  rw [← Int.natCast_floor_eq_floor hnn, Nat.floor_div_nat,
    Real.nat_floor_real_sqrt_eq_nat_sqrt]
  rfl

/-- Shape of the `aokStep` fold: the fold leaves `words_map` untouched and
every queued posting stores the `rankOfScoreSq` of a score drawn from the
word list. -/
theorem aokFold_shape (tid oid : Nat) (ws : List (String × ℚ)) :
    ∀ (acc : DBState × List (ℤ × Nat) × List Posting) (pre : List WordRow),
      (ws.foldl (aokStep pre tid oid) acc).1.words_map = acc.1.words_map ∧
      ∀ x ∈ (ws.foldl (aokStep pre tid oid) acc).2.2,
        x ∈ acc.2.2 ∨
          (∃ w, (w, x.freqSq) ∈ ws) ∧ x.rank = rankOfScoreSq x.freqSq := by
  induction ws with
  | nil => exact fun acc pre => ⟨rfl, fun x hx => Or.inl hx⟩
  | cons hd tl ih =>
    intro acc pre
    rcases acc with ⟨s, ul, ml⟩
    simp only [List.foldl_cons]
    have step : ∀ s2 ul2 ml2, aokStep pre tid oid (s, ul, ml) hd = (s2, ul2, ml2) →
        s2.words_map = s.words_map ∧
        ∀ x ∈ ml2, x ∈ ml ∨
          (∃ w, (w, x.freqSq) ∈ hd :: tl) ∧ x.rank = rankOfScoreSq x.freqSq := by
      intro s2 ul2 ml2 heq
      simp only [aokStep] at heq
      rcases hf : pre.find? (fun r => r.word == hd.1) with _ | r
      · rw [hf] at heq
        injection heq with h1 h2
        injection h2 with h2 h3
        subst h1
        subst h3
        refine ⟨rfl, fun x hx => ?_⟩
        rcases List.mem_append.mp hx with hm | hm
        · exact Or.inl hm
        · rcases List.mem_singleton.mp hm with rfl
          exact Or.inr ⟨⟨hd.1, List.mem_cons_self _ _⟩, rfl⟩
      · rw [hf] at heq
        injection heq with h1 h2
        injection h2 with h2 h3
        subst h1
        subst h3
        refine ⟨rfl, fun x hx => ?_⟩
        rcases List.mem_append.mp hx with hm | hm
        · exact Or.inl hm
        · rcases List.mem_singleton.mp hm with rfl
          exact Or.inr ⟨⟨hd.1, List.mem_cons_self _ _⟩, rfl⟩
    rcases heq : aokStep pre tid oid (s, ul, ml) hd with ⟨s2, ul2, ml2⟩
    rcases step s2 ul2 ml2 heq with ⟨hwm, hml⟩
    rcases ih (s2, ul2, ml2) pre with ⟨ihwm, ihml⟩
    constructor
    · rw [ihwm]
      exact hwm
    · intro x hx
      rcases ihml x hx with hm | hm
      · rcases hml x hm with hm2 | ⟨⟨w, hw⟩, hr⟩
        · exact Or.inl hm2
        · exact Or.inr ⟨⟨w, hw⟩, hr⟩
      · rcases hm with ⟨⟨w, hw⟩, hr⟩
        exact Or.inr ⟨⟨w, List.mem_cons_of_mem _ hw⟩, hr⟩

/-- Every posting appended to `words_map` by `_add_object_keywords` stores
exactly the rank `rankOfScoreSq` of its score and a score drawn from the
given word map. -/
theorem addObjectKeywords_new_postings (st : DBState) (tid oid : Nat)
    (ws : List (String × ℚ)) (p : Posting)
    (hp : p ∈ (addObjectKeywords st tid oid ws).words_map) :
    p ∈ st.words_map ∨
      (∃ w, (w, p.freqSq) ∈ ws) ∧ p.rank = rankOfScoreSq p.freqSq := by
  unfold addObjectKeywords at hp
  rcases heq : ws.foldl
      (aokStep (st.words.filter fun r => (ws.map (·.1)).contains r.word) tid oid)
      (st, [], []) with ⟨s1, ul, ml⟩
  rw [heq] at hp
  dsimp only at hp
  rcases aokFold_shape tid oid ws (st, [], [])
      (st.words.filter fun r => (ws.map (·.1)).contains r.word) with ⟨hwm, hml⟩
  rw [heq] at hwm hml
  dsimp only at hwm hml
  rcases List.mem_append.mp hp with hm | hm
  · rw [hwm] at hm
    exact Or.inl hm
  · rcases hml p hm with hm2 | hm2
    · simp at hm2
    · exact Or.inr hm2

/-- C3: for every posting inserted by `_add_object_keywords` from scorer
output with coefficient 1 (the weight both `add_object` and
`update_object` pass), the stored score `√q` lies in `(0, 1]` and the
stored rank equals `clamp(⌊10·score⌋, 0, 10)`, which in particular lies
between 0 and 10. -/
theorem claim_C3_rank_clamp (parts : List (Value × ℚ)) (ws : List (String × ℚ))
    (st : DBState) (tid oid : Nat) (p : Posting)
    (hcoeff : ∀ x ∈ parts, x.2 = 1)
    (hok : scoreWords parts = .ok ws)
    (hp : p ∈ (addObjectKeywords st tid oid ws).words_map)
    (hnew : p ∉ st.words_map) :
    0 < Real.sqrt (p.freqSq : ℝ) ∧ Real.sqrt (p.freqSq : ℝ) ≤ 1 ∧
    p.rank = max 0 (min 10 ⌊(10 : ℝ) * Real.sqrt (p.freqSq : ℝ)⌋) ∧
    0 ≤ p.rank ∧ p.rank ≤ 10 := by
  rcases addObjectKeywords_new_postings st tid oid ws p hp with hold | ⟨⟨w, hw⟩, hr⟩
  · exact absurd hold hnew
  · rcases scoreWords_bounds parts ws hcoeff hok (w, p.freqSq) hw with ⟨hq0, hq1⟩
    have hs0 : (0 : ℝ) < Real.sqrt (p.freqSq : ℝ) := by
      rw [Real.sqrt_pos]
      exact_mod_cast hq0
    have hs1 : Real.sqrt (p.freqSq : ℝ) ≤ 1 := by
      rw [Real.sqrt_le_one]
      exact_mod_cast hq1
    have hfl : p.rank = ⌊(10 : ℝ) * Real.sqrt (p.freqSq : ℝ)⌋ := by
      rw [hr]
      exact rankOfScoreSq_eq_floor _ (le_of_lt (by exact_mod_cast hq0))
    have hub : ⌊(10 : ℝ) * Real.sqrt (p.freqSq : ℝ)⌋ ≤ 10 := by
      have hle : (10 : ℝ) * Real.sqrt (p.freqSq : ℝ) ≤ ((10 : ℤ) : ℝ) := by
        push_cast
        nlinarith [hs1, Real.sqrt_nonneg ((p.freqSq : ℚ) : ℝ)]
      have hmono := Int.floor_le_floor hle
      rwa [Int.floor_intCast] at hmono
    have hlb : (0 : ℤ) ≤ ⌊(10 : ℝ) * Real.sqrt (p.freqSq : ℝ)⌋ := by
      apply Int.floor_nonneg.mpr
      positivity
    refine ⟨hs0, hs1, ?_, ?_, ?_⟩
    · rw [hfl, min_eq_right hub, max_eq_right hlb]
    · rw [hfl]
      exact hlb
    · rw [hfl]
      exact hub

set_option maxHeartbeats 2000000 in
/-- C3 witness: the rank property instantiated on a two-word part scored
for a concrete object. -/
theorem claim_C3_rank_clamp_witness :
    (∀ x ∈ [(Value.vuni "hello hello world", (1 : ℚ))], x.2 = 1) ∧
    scoreWords [(Value.vuni "hello hello world", (1 : ℚ))] =
      .ok [("hello", 2/3), ("world", 1/3)] ∧
    (⟨8, 1, 1, 1, 2/3⟩ : Posting) ∈
      (addObjectKeywords emptyState 1 1 [("hello", 2/3), ("world", 1/3)]).words_map ∧
    (0 < Real.sqrt ((2/3 : ℚ) : ℝ) ∧ Real.sqrt ((2/3 : ℚ) : ℝ) ≤ 1 ∧
      (⟨8, 1, 1, 1, 2/3⟩ : Posting).rank =
        max 0 (min 10 ⌊(10 : ℝ) * Real.sqrt ((2/3 : ℚ) : ℝ)⌋) ∧
      0 ≤ (⟨8, 1, 1, 1, 2/3⟩ : Posting).rank ∧
      (⟨8, 1, 1, 1, 2/3⟩ : Posting).rank ≤ 10) :=
  ⟨of_decide_eq_true (by with_unfolding_all rfl),
   of_decide_eq_true (by with_unfolding_all rfl),
   of_decide_eq_true (by with_unfolding_all rfl),
   claim_C3_rank_clamp [(Value.vuni "hello hello world", (1 : ℚ))]
     [("hello", 2/3), ("world", 1/3)] emptyState 1 1 ⟨8, 1, 1, 1, 2/3⟩
     (of_decide_eq_true (by with_unfolding_all rfl))
     (of_decide_eq_true (by with_unfolding_all rfl))
     (of_decide_eq_true (by with_unfolding_all rfl))
     (of_decide_eq_true (by with_unfolding_all rfl))⟩

/-! ### C9: empty results of the keyword search -/

/-- When some query term matches no `words` row, the resolved rows are
strictly fewer than the query terms (the `len(ids) < nwords` exit). -/
theorem filtered_words_short (wordsT : List String) (rows : List WordRow)
    (t : String) (hnodup : (rows.map (fun r => r.word)).Nodup)
    (ht : t ∈ wordsT) (habsent : ∀ r ∈ rows, r.word ≠ t) :
    (rows.filter fun r => wordsT.contains r.word).length < wordsT.length := by
  have hsubl : ((rows.filter fun r => wordsT.contains r.word).map
      (fun r => r.word)).Nodup :=
    hnodup.sublist (List.Sublist.map _ (List.filter_sublist _))
  have hsubset : ((rows.filter fun r => wordsT.contains r.word).map
      (fun r => r.word)).toFinset ⊆ wordsT.toFinset.erase t := by
    intro w hw
    rcases List.mem_toFinset.mp hw with hw
    rcases List.mem_map.mp hw with ⟨r, hr, rfl⟩
    have hrmem := List.mem_of_mem_filter hr
    have hrkeep := List.of_mem_filter hr
    refine Finset.mem_erase.mpr ⟨habsent r hrmem, ?_⟩
    refine List.mem_toFinset.mpr ?_
    simpa using hrkeep
  have hcard1 : ((rows.filter fun r => wordsT.contains r.word).map
      (fun r => r.word)).toFinset.card =
      ((rows.filter fun r => wordsT.contains r.word).map (fun r => r.word)).length :=
    List.toFinset_card_of_nodup hsubl
  have hcard2 := Finset.card_le_card hsubset
  have hcard3 : (wordsT.toFinset.erase t).card = wordsT.toFinset.card - 1 :=
    Finset.card_erase_of_mem (List.mem_toFinset.mpr ht)
  have hpos : 0 < wordsT.toFinset.card :=
    Finset.card_pos.mpr ⟨t, List.mem_toFinset.mpr ht⟩
  have hcard4 : wordsT.toFinset.card ≤ wordsT.length := wordsT.toFinset_card_le
  have hlenmap : ((rows.filter fun r => wordsT.contains r.word).map
      (fun r => r.word)).length =
      (rows.filter fun r => wordsT.contains r.word).length := List.length_map _ _
  omega

/-- C9: `_query_keywords` returns the empty list whenever the phrase
yields no query terms, whenever some term resolves to no `words` row, and
whenever some resolved term has document frequency zero (AND semantics).
`hnodup` is the uniqueness constraint of the `words.word` column. -/
theorem claim_C9_search_empty (st : DBState) (phrase : String)
    (limit : Option Nat) (otype : Option String)
    (scoreLe : Score → Score → Bool) (fuel : Nat)
    (hnodup : (st.words.map (fun r => r.word)).Nodup)
    (hcond : queryTerms phrase = [] ∨
      (∃ t ∈ queryTerms phrase, ∀ r ∈ st.words, r.word ≠ t) ∨
      (∃ r ∈ st.words, r.word ∈ queryTerms phrase ∧ r.count = 0)) :
    queryKeywords st phrase limit otype scoreLe fuel = .ok [] := by
  unfold queryKeywords
  simp only []
  rcases hcond with hempty | ⟨t, ht, habsent⟩ | ⟨r, hr, hrw, hrc⟩
  · rw [if_pos (by rw [hempty]; rfl)]
  · have hne : ¬ ((queryTerms phrase).length = 0) := by
      intro h0
      rw [List.length_eq_zero.mp h0] at ht
      simp at ht
    rw [if_neg hne]
    by_cases hany : ((st.words.filter fun w =>
        (queryTerms phrase).contains w.word).mergeSort
        (fun a b => a.count ≤ b.count)).any (fun w => w.count == 0) = true
    · rw [if_pos hany]
    · rw [if_neg hany]
      have hlen : ((st.words.filter fun w =>
          (queryTerms phrase).contains w.word).mergeSort
          (fun a b => a.count ≤ b.count)).length < (queryTerms phrase).length := by
        rw [List.length_mergeSort]
        exact filtered_words_short (queryTerms phrase) st.words t hnodup ht habsent
      rw [if_pos hlen]
  · have hne : ¬ ((queryTerms phrase).length = 0) := by
      intro h0
      rw [List.length_eq_zero.mp h0] at hrw
      simp at hrw
    rw [if_neg hne]
    have hmem : r ∈ (st.words.filter fun w =>
        (queryTerms phrase).contains w.word).mergeSort
        (fun a b => a.count ≤ b.count) := by
      rw [List.mem_mergeSort]
      refine List.mem_filter.mpr ⟨hr, ?_⟩
      simpa using hrw
    have hany : ((st.words.filter fun w =>
        (queryTerms phrase).contains w.word).mergeSort
        (fun a b => a.count ≤ b.count)).any (fun w => w.count == 0) = true := by
      rw [List.any_eq_true]
      exact ⟨r, hmem, by simp [hrc]⟩
    rw [if_pos hany]

/-- C9 witness: all three empty-return conditions hold on a one-word
database and suitable phrases; the middle (absent-term) condition is
instantiated. -/
theorem claim_C9_search_empty_witness :
    (let st : DBState := { emptyState with
        words := [⟨1, "hello", 1⟩] }
     (st.words.map (fun r => r.word)).Nodup ∧
     (∃ t ∈ queryTerms "xyzzy absent", ∀ r ∈ st.words, r.word ≠ t) ∧
     queryKeywords st "xyzzy absent" (some 5) Option.none (fun _ _ => true) 9 =
       .ok []) := by
  refine ⟨by decide, ⟨"xyzzy", by decide, by decide⟩, ?_⟩
  exact claim_C9_search_empty _ _ _ _ _ _ (by decide)
    (Or.inr (Or.inl ⟨"xyzzy", by decide, by decide⟩))

/-! ### C4: unknown constraint attributes in `query` -/

/-- A database with one registered type `t` carrying a single searchable
attribute `foo`. -/
def st_c4 : DBState :=
  match registerObjectTypeAttrs emptyState "t" []
      [("foo", (PyType.int, ATTR_SEARCHABLE))] with
  | .ok s => s
  | .error _ => emptyState

/-- C4 counterexample: with the type given explicitly, a constraint naming
an attribute unknown for that type is NOT a hard error — the source hits
the same silent `continue` as the untyped path and returns the empty
result, refuting the claimed hard error. -/
theorem claim_C4_counterexample :
    query st_c4 (some "t") Option.none [("bar", Value.vint 1)] = .ok [] ∧
    ∀ e : DbErr,
      query st_c4 (some "t") Option.none [("bar", Value.vint 1)] ≠ .error e := by
  have h : query st_c4 (some "t") Option.none [("bar", Value.vint 1)] = .ok [] := by
    decide
  refine ⟨h, fun e he => ?_⟩
  rw [h] at he
  cases he

/-- C4 (amended): a type lacking one of the attribute-value constraint
attributes is silently skipped — it contributes no rows and raises no
error — both when that type is given explicitly and when no type is given
(shown for a registry containing just that type). -/
theorem claim_C4_unknown_attr_skips (st : DBState) (t : String)
    (info : TypeInfo) (lim : Option Nat) (cs : List (String × Value))
    (hlook : alistGet st.types t = some info)
    (hmiss : ∃ c ∈ cs, (matNames info.attrs).contains c.1 = false) :
    query st (some t) lim cs = .ok [] ∧
    (st.types = [(t, info)] → query st Option.none lim cs = .ok []) := by
  have hskip : queryOneType st t info lim cs = Option.none := by
    unfold queryOneType
    rcases hmiss with ⟨c, hc, hmc⟩
    rw [if_pos]
    rw [List.any_eq_true]
    exact ⟨c, hc, by rw [hmc]; rfl⟩
  constructor
  · simp only [query, hlook]
    simp only [List.foldl_cons, List.foldl_nil, hskip]
    rfl
  · intro htypes
    simp only [query, htypes]
    simp only [List.foldl_cons, List.foldl_nil, hskip]
    rfl

/-- The registry entry the first registration of `st_c4` produces. -/
def st_c4_info : TypeInfo :=
  ⟨1, [("foo", (PyType.int, ATTR_SEARCHABLE)),
       ("id", (PyType.int, ATTR_SEARCHABLE)),
       ("parent_type", (PyType.int, ATTR_SEARCHABLE)),
       ("parent_id", (PyType.int, ATTR_SEARCHABLE)),
       ("pickle", (PyType.buffer, ATTR_SEARCHABLE))], []⟩

/-- C4 witness: the silent skip instantiated on the one-type database with
an unknown constraint attribute `bar`. -/
theorem claim_C4_unknown_attr_skips_witness :
    (alistGet st_c4.types "t" = some st_c4_info) ∧
    (∃ c ∈ [(("bar" : String), Value.vint 1)],
      (matNames st_c4_info.attrs).contains c.1 = false) ∧
    query st_c4 (some "t") (some 5) [("bar", Value.vint 1)] = .ok [] :=
  ⟨by decide, ⟨("bar", Value.vint 1), by decide, by decide⟩,
   (claim_C4_unknown_attr_skips st_c4 "t" st_c4_info (some 5)
     [("bar", Value.vint 1)]
     (by decide) ⟨("bar", Value.vint 1), by decide, by decide⟩).1⟩

/-! ### C5: re-registration with only a new multi-column index -/

/-- C5 counterexample: re-registering type `t` with a brand-new
multi-column index `["foo"]` and an unchanged attribute map returns the
database exactly as it was — the registered index list is still empty and
no `CREATE INDEX` was issued — refuting the claimed metadata persistence
and index creation. -/
theorem claim_C5_counterexample :
    registerObjectTypeAttrs st_c4 "t" [["foo"]] [] = .ok st_c4 ∧
    (alistGet st_c4.types "t").map (fun i => i.idx) = some [] ∧
    DbEvent.createIndex "objects_t_foo_idx" ∉ st_c4.log := by
  refine ⟨by decide, by decide, by decide⟩

/-- C5 (amended): a re-registration whose attribute map is unchanged
returns early with no change at all — no table rebuild, no metadata
update, and no index creation — even when new multi-column indexes were
requested (the `changed` flag only tracks attribute differences). -/
theorem claim_C5_index_only_noop (st : DBState) (t : String) (info : TypeInfo)
    (indexes : List (List String)) (attrs : List (String × AttrSpec))
    (hidx : indexes ≠ [])
    (hlook : alistGet st.types t = some info)
    (hnochange : ∀ a ∈ attrs, alistGet info.attrs a.1 = some a.2) :
    registerObjectTypeAttrs st t indexes attrs = .ok st := by
  have hguard : (indexes.isEmpty && attrs.isEmpty) = false := by
    cases indexes with
    | nil => exact absurd rfl hidx
    | cons _ _ => rfl
  have hfilter : (attrs.filter fun a => alistGet info.attrs a.1 ≠ some a.2) = [] := by
    rw [List.filter_eq_nil_iff]
    intro a ha
    simp [hnochange a ha]
  unfold registerObjectTypeAttrs
  simp only [hguard, Bool.false_eq_true, if_false, hlook, hfilter]
  rfl

/-- C5 witness: the early return instantiated on the concrete one-type
database and the new index `["foo"]`. -/
theorem claim_C5_index_only_noop_witness :
    ([[("foo" : String)]] ≠ ([] : List (List String))) ∧
    (alistGet st_c4.types "t" = some st_c4_info) ∧
    registerObjectTypeAttrs st_c4 "t" [["foo"]] [] = .ok st_c4 :=
  ⟨by decide, by decide,
   claim_C5_index_only_noop st_c4 "t" st_c4_info [["foo"]] []
     (by decide) (by decide) (by intro a ha; cases ha)⟩

/-! ### C7: reserved attribute names -/

/-- C7 (code bug): on a first registration the reserved attribute name
`keywords` is rejected (the `assert` in the table-build loop fires), but
on a re-registration that adds it as a SIMPLE attribute the function
returns before ever reaching that assert, and the reserved name is
accepted and persisted into the type's attribute map — contradicting the
source's own comment that such names cannot be registered. -/
theorem claim_C7_reserved_attr_bug :
    (registerObjectTypeAttrs emptyState "t" []
        [("keywords", (PyType.unicode, ATTR_SIMPLE))] = .error .schemaError) ∧
    (∃ st', registerObjectTypeAttrs st_c4 "t" []
        [("keywords", (PyType.unicode, ATTR_SIMPLE))] = .ok st' ∧
      (alistGet st'.types "t").map (fun i => alistGet i.attrs "keywords") =
        some (some (PyType.unicode, ATTR_SIMPLE))) := by
  refine ⟨by decide,
    ⟨match registerObjectTypeAttrs st_c4 "t" []
        [("keywords", (PyType.unicode, ATTR_SIMPLE))] with
      | .ok s => s
      | .error _ => emptyState,
     by decide, by decide⟩⟩

/-! ### C1: cascade completeness of `delete_object` -/

/-- A database with four types `A`,`B`,`C`,`D` (type ids 1..4), objects
`A:1` (root), `B:1` and `C:1` (children of `A:1`), `D:1` (child of `B:1`)
and `D:2` (child of `C:1`) — five objects, the root plus four
descendants. -/
def st_c1 : DBState :=
  let r := fun (st : DBState) n =>
    match registerObjectTypeAttrs st n [] [("n", (PyType.int, ATTR_SEARCHABLE))] with
    | .ok s => s
    | .error _ => st
  let a := fun (st : DBState) t p =>
    (addObject st t p [("n", Value.vint 7)]).1
  a (a (a (a (a (r (r (r (r emptyState "A") "B") "C") "D")
    "A" Option.none) "B" (some ("A", 1))) "C" (some ("A", 1)))
    "D" (some ("B", 1))) "D" (some ("C", 1))

/-- C1 (code bug): the database holds 5 objects (the root `A:1` and its 4
descendants), yet `delete_object A:1` reports only 4 deletions and leaves
the descendant `D:1` alive: while deleting the generation `{B:1, C:1}`,
the children of `C:1` are written over the dict entry that held the
children of `B:1` (`child_objects[tp_name] = ...`), so `B:1`'s child
`D:1` is never visited. -/
theorem claim_C1_cascade_bug :
    ((st_c1.tables.map (fun t => t.2.rows.length)).foldl (· + ·) 0 = 5) ∧
    (deleteObject st_c1 "A" 1 10).2.1 = 4 ∧
    (deleteObject st_c1 "A" 1 10).2.2 = Option.none ∧
    ((alistGet (deleteObject st_c1 "A" 1 10).1.tables "objects_D").getD
      ⟨1, [], false⟩).rows.map (fun r => r.id) = [1] := by
  refine ⟨by decide, by decide, by decide, by decide⟩

/-! ### C6: migration safety -/

theorem alistSet_fresh {α β : Type} [DecidableEq α] (l : List (α × β)) (k : α)
    (v : β) (h : alistGet l k = Option.none) : alistSet l k v = l ++ [(k, v)] := by
  induction l with
  | nil => rfl
  | cons x xs ih =>
    rcases x with ⟨a, b⟩
    simp only [alistGet] at h
    by_cases hk : k = a
    · rw [if_pos hk] at h
      cases h
    · rw [if_neg hk] at h
      simp only [alistSet, if_neg hk, List.cons_append, ih h]

theorem alistGet_alistSet {α β : Type} [DecidableEq α] (l : List (α × β))
    (k : α) (v : β) : alistGet (alistSet l k v) k = some v := by
  induction l with
  | nil => simp [alistSet, alistGet]
  | cons x xs ih =>
    rcases x with ⟨a, b⟩
    simp only [alistSet]
    by_cases hk : k = a
    · rw [if_pos hk]
      simp [alistGet, hk]
    · rw [if_neg hk]
      simp [alistGet, hk, ih]

theorem matNames_append (l l' : List (String × AttrSpec)) :
    matNames (l ++ l') = matNames l ++ matNames l' := by
  simp [matNames, List.filter_append]

/-- C6: migration safety of re-registration.  First conjunct: adding one
brand-new SIMPLE (zero-flag) attribute updates only the persisted
attribute metadata — the whole `tables` component, hence every existing
row's materialized columns, is untouched and no table is rebuilt.  Second
conjunct: adding one brand-new materialized (nonzero-flag) attribute
rebuilds the table (a temporary table is created, filled, and renamed
into place) and the new rows are exactly the old rows restricted to the
old materialized column set — so every value of every column that was
materialized in the old schema is preserved, by name, together with the
row id and pickle. -/
theorem claim_C6_migration_safety :
    (∀ (st : DBState) (t n : String) (ty : PyType) (info : TypeInfo),
      alistGet st.types t = some info →
      alistGet info.attrs n = Option.none →
      checkIndexes info.idx (info.attrs ++ [(n, (ty, ATTR_SIMPLE))]) = Option.none →
      registerObjectTypeAttrs st t [] [(n, (ty, ATTR_SIMPLE))] =
        .ok { st with
          types := alistSet st.types t
            ⟨info.id, info.attrs ++ [(n, (ty, ATTR_SIMPLE))], info.idx⟩,
          log := st.log ++ [DbEvent.updateTypesAttrs info.id] }) ∧
    (∀ (st : DBState) (t n : String) (ty : PyType) (f : Nat) (info : TypeInfo)
        (td : TableData),
      f ≠ 0 →
      alistGet st.types t = some info →
      alistGet info.attrs n = Option.none →
      checkIndexes info.idx (info.attrs ++ [(n, (ty, f))]) = Option.none →
      ((info.attrs ++ [(n, (ty, f))]).any fun a =>
        RESERVED_ATTRIBUTES.contains a.1) = false →
      alistGet st.tables ("objects_" ++ t) = some td →
      ∃ st', registerObjectTypeAttrs st t [] [(n, (ty, f))] = .ok st' ∧
        (∃ td', alistGet st'.tables ("objects_" ++ t) = some td' ∧
          td'.rows = td.rows.map (restrictRow (matNames info.attrs)) ∧
          ∀ r ∈ td.rows, ∀ cv ∈ r.cols,
            (matNames info.attrs).contains cv.1 = true →
            ∃ r' ∈ td'.rows, r'.id = r.id ∧ r'.pickle = r.pickle ∧ cv ∈ r'.cols) ∧
        DbEvent.createTable ("objects_" ++ t ++ "_tmp")
          (matNames (info.attrs ++ [(n, (ty, f))])) ∈ st'.log) := by
  constructor
  · intro st t n ty info hlook hnew hidx
    have hfilter : ([(n, (ty, ATTR_SIMPLE))].filter fun a =>
        alistGet info.attrs a.1 ≠ some a.2) = [(n, (ty, ATTR_SIMPLE))] := by
      simp [hnew]
    have hmerged : alistUpdate info.attrs [(n, (ty, ATTR_SIMPLE))] =
        info.attrs ++ [(n, (ty, ATTR_SIMPLE))] := by
      simp [alistUpdate, alistSet_fresh _ _ _ hnew]
    simp only [registerObjectTypeAttrs, hlook, hfilter, hmerged]
    simp only [List.filter_nil, List.dedup_nil, List.append_nil, List.isEmpty_nil,
      List.isEmpty_cons, Bool.and_false, Bool.false_eq_true, if_false, hidx]
    rfl
  · intro st t n ty f info td hf hlook hnew hidx hres htd
    have hfilter : ([(n, (ty, f))].filter fun a =>
        alistGet info.attrs a.1 ≠ some a.2) = [(n, (ty, f))] := by
      simp [hnew]
    have hmerged : alistUpdate info.attrs [(n, (ty, f))] =
        info.attrs ++ [(n, (ty, f))] := by
      simp [alistUpdate, alistSet_fresh _ _ _ hnew]
    have hreb : ([(n, (ty, f))].any fun a => a.2.2 ≠ 0) = true := by
      simp [hf]
    have hmat : matNames (info.attrs ++ [(n, (ty, f))]) =
        matNames info.attrs ++ [n] := by
      rw [matNames_append]
      simp [matNames, hf]
    have hcols : ((matNames info.attrs).all fun c =>
        (matNames (info.attrs ++ [(n, (ty, f))])).contains c) = true := by
      rw [List.all_eq_true]
      intro c hc
      rw [hmat]
      simpa using Or.inl hc
    have hrun : registerObjectTypeAttrs st t [] [(n, (ty, f))] =
        createTableAndMigrate st t (some (info.id, info.attrs))
          (info.attrs ++ [(n, (ty, f))]) info.idx := by
      simp only [registerObjectTypeAttrs, hlook, hfilter, hmerged]
      simp only [List.filter_nil, List.dedup_nil, List.append_nil, List.isEmpty_nil,
        List.isEmpty_cons, Bool.and_false, Bool.false_eq_true, if_false, hidx, hreb,
        Bool.not_true]
    have hctm : createTableAndMigrate st t (some (info.id, info.attrs))
        (info.attrs ++ [(n, (ty, f))]) info.idx =
        .ok (finishTable
          { st with
            types := alistSet st.types t
              ⟨info.id, info.attrs ++ [(n, (ty, f))], info.idx⟩,
            log := st.log ++
              [DbEvent.createTable ("objects_" ++ t ++ "_tmp")
                (matNames (info.attrs ++ [(n, (ty, f))])),
               DbEvent.insertTypesRow info.id] ++
              [DbEvent.dropTable ("objects_" ++ t)] }
          t (info.attrs ++ [(n, (ty, f))]) info.idx
          (td.rows.map (restrictRow (matNames info.attrs)))) := by
      simp only [createTableAndMigrate, hres, Bool.false_eq_true, if_false, hcols,
        Bool.not_true, htd, Option.getD_some]
    rw [hrun, hctm]
    refine ⟨_, rfl, ⟨⟨maxRowId (td.rows.map (restrictRow (matNames info.attrs))) + 1,
      td.rows.map (restrictRow (matNames info.attrs)),
      typeHasKeywordAttr (alistSet st.types t
        ⟨info.id, info.attrs ++ [(n, (ty, f))], info.idx⟩) t⟩,
      ?_, rfl, ?_⟩, ?_⟩
    · unfold finishTable
      exact alistGet_alistSet _ _ _
    · intro r hr cv hcv hmatch
      refine ⟨restrictRow (matNames info.attrs) r, List.mem_map_of_mem _ hr, rfl, rfl, ?_⟩
      unfold restrictRow
      exact List.mem_filter.mpr ⟨hcv, hmatch⟩
    · unfold finishTable
      dsimp only
      refine List.mem_append_left _ ?_
      refine List.mem_append_left _ ?_
      refine List.mem_append_left _ ?_
      refine List.mem_append_left _ ?_
      refine List.mem_append_left _ ?_
      refine List.mem_append_left _ ?_
      exact List.mem_append_right _ (List.mem_cons_self _ _)

/-- The one-type database of `st_c4` with one object whose materialized
column `foo` holds 3. -/
def st_c6 : DBState := (addObject st_c4 "t" Option.none [("foo", Value.vint 3)]).1

/-- The object table of `st_c6`. -/
def st_c6_td : TableData := ⟨2, [⟨1, [("foo", Value.vint 3)], []⟩], false⟩

/-- C6 witness: both migration-safety statements instantiated — a SIMPLE
attribute `note` added to `st_c4` (metadata-only update) and a
materialized attribute `bar` added to the populated `st_c6` (rebuild with
column values preserved by name). -/
theorem claim_C6_migration_safety_witness :
    (alistGet st_c4.types "t" = some st_c4_info) ∧
    (alistGet st_c6.tables ("objects_" ++ "t") = some st_c6_td) ∧
    (registerObjectTypeAttrs st_c4 "t" [] [("note", (PyType.unicode, ATTR_SIMPLE))] =
      .ok { st_c4 with
        types := alistSet st_c4.types "t"
          ⟨st_c4_info.id,
           st_c4_info.attrs ++ [("note", (PyType.unicode, ATTR_SIMPLE))],
           st_c4_info.idx⟩,
        log := st_c4.log ++ [DbEvent.updateTypesAttrs st_c4_info.id] }) ∧
    (∃ st', registerObjectTypeAttrs st_c6 "t" []
        [("bar", (PyType.unicode, ATTR_SEARCHABLE))] = .ok st' ∧
      (∃ td', alistGet st'.tables ("objects_" ++ "t") = some td' ∧
        td'.rows = st_c6_td.rows.map (restrictRow (matNames st_c4_info.attrs)) ∧
        ∀ r ∈ st_c6_td.rows, ∀ cv ∈ r.cols,
          (matNames st_c4_info.attrs).contains cv.1 = true →
          ∃ r' ∈ td'.rows, r'.id = r.id ∧ r'.pickle = r.pickle ∧ cv ∈ r'.cols) ∧
      DbEvent.createTable ("objects_" ++ "t" ++ "_tmp")
        (matNames (st_c4_info.attrs ++
          [("bar", (PyType.unicode, ATTR_SEARCHABLE))])) ∈ st'.log) :=
  ⟨by decide, by decide,
   claim_C6_migration_safety.1 st_c4 "t" "note" PyType.unicode st_c4_info
     (by decide) (by decide) (by decide),
   claim_C6_migration_safety.2 st_c6 "t" "bar" PyType.unicode ATTR_SEARCHABLE
     st_c4_info st_c6_td (by decide) (by decide) (by decide) (by decide)
     (by decide) (by decide)⟩

/-! ### C2: the words-count invariant

The proof characterizes the `aokStep` fold of `_add_object_keywords` by
three aligned recursions over the scored word list: the new word rows it
inserts (with consecutive fresh ids), the count updates it queues, and
the postings it queues. -/

/-- The brand-new word rows the fold inserts, ids allocated consecutively
from `nid`. -/
def aokNewRows (pre : List WordRow) : Nat → List (String × ℚ) → List WordRow
  | _, [] => []
  | nid, w :: rest =>
    match pre.find? (fun r => r.word == w.1) with
    | Option.none => ⟨nid, w.1, 1⟩ :: aokNewRows pre (nid + 1) rest
    | some _ => aokNewRows pre nid rest

/-- The queued `UPDATE words SET count=?` list. -/
def aokUpdates (pre : List WordRow) : List (String × ℚ) → List (ℤ × Nat)
  | [] => []
  | w :: rest =>
    match pre.find? (fun r => r.word == w.1) with
    | Option.none => aokUpdates pre rest
    | some r => (r.count + 1, r.id) :: aokUpdates pre rest

/-- The queued posting list. -/
def aokPostings (pre : List WordRow) (tid oid : Nat) :
    Nat → List (String × ℚ) → List Posting
  | _, [] => []
  | nid, w :: rest =>
    match pre.find? (fun r => r.word == w.1) with
    | Option.none =>
      ⟨rankOfScoreSq w.2, nid, tid, oid, w.2⟩ ::
        aokPostings pre tid oid (nid + 1) rest
    | some r =>
      ⟨rankOfScoreSq w.2, r.id, tid, oid, w.2⟩ :: aokPostings pre tid oid nid rest

/-- The last value assigned to word id `i` by a queued update list
(`d` when no update targets it). -/
def lastSet (U : List (ℤ × Nat)) (i : Nat) (d : ℤ) : ℤ :=
  U.foldl (fun c ci => if i = ci.2 then ci.1 else c) d

theorem aokFold_eq (pre : List WordRow) (tid oid : Nat) :
    ∀ (ws : List (String × ℚ)) (s : DBState) (ul : List (ℤ × Nat))
      (ml : List Posting),
      ws.foldl (aokStep pre tid oid) (s, ul, ml) =
        ({ s with words := s.words ++ aokNewRows pre s.nextWordId ws,
                  nextWordId := s.nextWordId +
                    (aokNewRows pre s.nextWordId ws).length },
         ul ++ aokUpdates pre ws,
         ml ++ aokPostings pre tid oid s.nextWordId ws) := by
  intro ws
  induction ws with
  | nil =>
    intro s ul ml
    simp only [List.foldl_nil, aokNewRows, aokUpdates, aokPostings,
      List.append_nil, List.length_nil, Nat.add_zero]
  | cons w rest ih =>
    intro s ul ml
    simp only [List.foldl_cons, aokStep]
    rcases hf : pre.find? (fun r => r.word == w.1) with _ | r
    · rw [hf]
      rw [ih]
      simp only [aokNewRows, aokUpdates, aokPostings, hf]
      refine congrArg₂ Prod.mk ?_ (congrArg₂ Prod.mk rfl ?_)
      · simp only [List.length_cons, List.cons_append, List.append_assoc,
          List.singleton_append]
        congr 1
        omega
      · simp only [List.cons_append, List.append_assoc, List.singleton_append,
          List.nil_append]
    · rw [hf]
      rw [ih]
      simp only [aokNewRows, aokUpdates, aokPostings, hf]
      refine congrArg₂ Prod.mk rfl (congrArg₂ Prod.mk ?_ ?_)
      · simp only [List.cons_append, List.append_assoc, List.singleton_append,
          List.nil_append]
      · simp only [List.cons_append, List.append_assoc, List.singleton_append,
          List.nil_append]

theorem foldl_setWordCount (U : List (ℤ × Nat)) :
    ∀ l : List WordRow,
      U.foldl (fun ws ci => setWordCount ws ci.2 ci.1) l =
        l.map (fun r => { r with count := lastSet U r.id r.count }) := by
  induction U with
  | nil =>
    intro l
    simp only [List.foldl_nil, lastSet, List.foldl_nil]
    refine (List.map_id l).symm.trans (List.map_congr_left ?_).symm
    intro r _
    rfl
  | cons u U ih =>
    intro l
    simp only [List.foldl_cons]
    rw [ih]
    unfold setWordCount
    rw [List.map_map]
    refine List.map_congr_left ?_
    intro r _
    simp only [Function.comp]
    by_cases hid : r.id = u.2
    · rw [if_pos hid]
      simp only [lastSet, List.foldl_cons, if_pos hid]
    · rw [if_neg hid]
      simp only [lastSet, List.foldl_cons, if_neg hid]

/-- The pre-read `db_words_count` rows: the `words` rows whose word is
among the scored words. -/
def aokPre (st : DBState) (ws : List (String × ℚ)) : List WordRow :=
  st.words.filter fun r => (ws.map (·.1)).contains r.word

/-- The words table after the queued updates. -/
def aokWordsAfter (st : DBState) (ws : List (String × ℚ)) : List WordRow :=
  (st.words ++ aokNewRows (aokPre st ws) st.nextWordId ws).map
    (fun r => { r with count := lastSet (aokUpdates (aokPre st ws) ws) r.id r.count })

/-- `_add_object_keywords` in closed form. -/
theorem addObjectKeywords_eq (st : DBState) (tid oid : Nat)
    (ws : List (String × ℚ)) :
    addObjectKeywords st tid oid ws =
      { st with
        words := aokWordsAfter st ws,
        nextWordId :=
          st.nextWordId + (aokNewRows (aokPre st ws) st.nextWordId ws).length,
        words_map :=
          st.words_map ++ aokPostings (aokPre st ws) tid oid st.nextWordId ws } := by
  unfold addObjectKeywords
  rw [aokFold_eq]
  simp only []
  rw [foldl_setWordCount]
  rfl

theorem find?_word_eq {pre : List WordRow} {w : String} {r : WordRow}
    (h : pre.find? (fun x => x.word == w) = some r) : r.word = w := by
  have := List.find?_some h
  simpa using this

theorem aokUpdates_mem (pre : List WordRow) :
    ∀ (ws : List (String × ℚ)) (ci : ℤ × Nat), ci ∈ aokUpdates pre ws →
      ∃ r ∈ pre, ∃ w ∈ ws, pre.find? (fun x => x.word == w.1) = some r ∧
        ci.1 = r.count + 1 ∧ ci.2 = r.id := by
  intro ws
  induction ws with
  | nil => intro ci h; simp [aokUpdates] at h
  | cons w rest ih =>
    intro ci h
    simp only [aokUpdates] at h
    rcases hf : pre.find? (fun x => x.word == w.1) with _ | r
    · rw [hf] at h
      rcases ih ci h with ⟨r, hr, w', hw', hfind, h1, h2⟩
      exact ⟨r, hr, w', List.mem_cons_of_mem _ hw', hfind, h1, h2⟩
    · rw [hf] at h
      rcases List.mem_cons.mp h with rfl | h
      · exact ⟨r, List.mem_of_find?_eq_some hf, w, List.mem_cons_self _ _, hf,
          rfl, rfl⟩
      · rcases ih ci h with ⟨r', hr', w', hw', hfind, h1, h2⟩
        exact ⟨r', hr', w', List.mem_cons_of_mem _ hw', hfind, h1, h2⟩

theorem aokPostings_mem (pre : List WordRow) (tid oid : Nat) :
    ∀ (ws : List (String × ℚ)) (nid : Nat) (p : Posting),
      p ∈ aokPostings pre tid oid nid ws →
      (nid ≤ p.word_id ∧
        p.word_id < nid + (aokNewRows pre nid ws).length) ∨
      (∃ r ∈ pre, ∃ w ∈ ws, pre.find? (fun x => x.word == w.1) = some r ∧
        p.word_id = r.id) := by
  intro ws
  induction ws with
  | nil => intro nid p h; simp [aokPostings] at h
  | cons w rest ih =>
    intro nid p h
    simp only [aokPostings] at h
    rcases hf : pre.find? (fun x => x.word == w.1) with _ | r
    · rw [hf] at h
      rcases List.mem_cons.mp h with rfl | h
      · refine Or.inl ⟨le_refl _, ?_⟩
        simp only [aokNewRows, hf, List.length_cons]
        omega
      · rcases ih (nid + 1) p h with ⟨h1, h2⟩ | ⟨r, hr, w', hw', hfind, hid⟩
        · refine Or.inl ⟨by omega, ?_⟩
          simp only [aokNewRows, hf, List.length_cons]
          omega
        · exact Or.inr ⟨r, hr, w', List.mem_cons_of_mem _ hw', hfind, hid⟩
    · rw [hf] at h
      rcases List.mem_cons.mp h with rfl | h
      · exact Or.inr ⟨r, List.mem_of_find?_eq_some hf, w,
          List.mem_cons_self _ _, hf, rfl⟩
      · rcases ih nid p h with ⟨h1, h2⟩ | ⟨r', hr', w', hw', hfind, hid⟩
        · refine Or.inl ⟨h1, ?_⟩
          simp only [aokNewRows, hf]
          omega
        · exact Or.inr ⟨r', hr', w', List.mem_cons_of_mem _ hw', hfind, hid⟩

theorem aokNewRows_mem (pre : List WordRow) :
    ∀ (ws : List (String × ℚ)) (nid : Nat) (row : WordRow),
      row ∈ aokNewRows pre nid ws →
      nid ≤ row.id ∧ row.id < nid + (aokNewRows pre nid ws).length ∧
      row.count = 1 ∧
      ∃ w ∈ ws, row.word = w.1 ∧
        pre.find? (fun x => x.word == w.1) = Option.none := by
  intro ws
  induction ws with
  | nil => intro nid row h; simp [aokNewRows] at h
  | cons w rest ih =>
    intro nid row h
    simp only [aokNewRows] at h
    rcases hf : pre.find? (fun x => x.word == w.1) with _ | r
    · rw [hf] at h
      simp only [aokNewRows, hf, List.length_cons]
      rcases List.mem_cons.mp h with rfl | h
      · exact ⟨le_refl _, by dsimp only; omega, rfl, w, List.mem_cons_self _ _, rfl, hf⟩
      · rcases ih (nid + 1) row h with ⟨h1, h2, h3, w', hw', h4, h5⟩
        exact ⟨by omega, by omega, h3, w', List.mem_cons_of_mem _ hw', h4, h5⟩
    · rw [hf] at h
      simp only [aokNewRows, hf]
      rcases ih nid row h with ⟨h1, h2, h3, w', hw', h4, h5⟩
      exact ⟨h1, h2, h3, w', List.mem_cons_of_mem _ hw', h4, h5⟩

theorem aokNewRows_ids_nodup (pre : List WordRow) :
    ∀ (ws : List (String × ℚ)) (nid : Nat),
      ((aokNewRows pre nid ws).map (fun r => r.id)).Nodup := by
  intro ws
  induction ws with
  | nil => intro nid; simp [aokNewRows]
  | cons w rest ih =>
    intro nid
    rcases hf : pre.find? (fun x => x.word == w.1) with _ | r
    · simp only [aokNewRows, hf, List.map_cons, List.nodup_cons]
      refine ⟨?_, ih (nid + 1)⟩
      intro hmem
      rcases List.mem_map.mp hmem with ⟨row, hrow, hid⟩
      have := (aokNewRows_mem pre rest (nid + 1) row hrow).1
      omega
    · simp only [aokNewRows, hf]
      exact ih nid

theorem lastSet_of_forall_ne (U : List (ℤ × Nat)) (i : Nat)
    (h : ∀ ci ∈ U, ci.2 ≠ i) : ∀ d, lastSet U i d = d := by
  induction U with
  | nil => intro d; rfl
  | cons u U ih =>
    intro d
    have hu := h u (List.mem_cons_self _ _)
    simp only [lastSet, List.foldl_cons]
    rw [if_neg (fun he => hu he.symm)]
    exact ih (fun ci hci => h ci (List.mem_cons_of_mem _ hci)) d

theorem aok_not_referenced (pre : List WordRow) (tid oid : Nat)
    (ws : List (String × ℚ)) (nid i : Nat)
    (hpreinj : (pre.map (fun r => r.id)).Nodup)
    (hib : i < nid)
    (hno : ∀ r ∈ pre, r.id = i → ∀ w ∈ ws, w.1 ≠ r.word) :
    (aokPostings pre tid oid nid ws).countP (fun p => p.word_id == i) = 0 ∧
    ∀ ci ∈ aokUpdates pre ws, ci.2 ≠ i := by
  constructor
  · rw [List.countP_eq_zero]
    intro p hp
    simp only [beq_iff_eq]
    intro hpi
    rcases aokPostings_mem pre tid oid ws nid p hp with ⟨h1, _⟩ |
      ⟨r, hr, w, hw, hfind, hid⟩
    · omega
    · have hword := find?_word_eq hfind
      exact hno r hr (by omega) w hw hword.symm
  · intro ci hci hcii
    rcases aokUpdates_mem pre ws ci hci with ⟨r, hr, w, hw, hfind, _, h2⟩
    have hword := find?_word_eq hfind
    exact hno r hr (by omega) w hw hword.symm

theorem aok_found_counts (pre : List WordRow) (tid oid : Nat)
    (hpreinj : (pre.map (fun r => r.id)).Nodup) :
    ∀ (ws : List (String × ℚ)) (nid : Nat) (r0 : WordRow) (w0 : String × ℚ),
      (ws.map (·.1)).Nodup →
      (∀ r ∈ pre, r.id < nid) →
      w0 ∈ ws →
      pre.find? (fun x => x.word == w0.1) = some r0 →
      (aokPostings pre tid oid nid ws).countP
        (fun p => p.word_id == r0.id) = 1 ∧
      ∀ d, lastSet (aokUpdates pre ws) r0.id d = r0.count + 1 := by
  intro ws
  induction ws with
  | nil =>
    intro nid r0 w0 _ _ hw0
    simp at hw0
  | cons w rest ih =>
    intro nid r0 w0 hkeys hpreb hw0 hfind
    have hr0pre := List.mem_of_find?_eq_some hfind
    have hr0w : r0.word = w0.1 := find?_word_eq hfind
    have hr0b : r0.id < nid := hpreb r0 hr0pre
    have hkeys' : (rest.map (·.1)).Nodup := (List.nodup_cons.mp hkeys).2
    have hheadnm : w.1 ∉ rest.map (·.1) := (List.nodup_cons.mp hkeys).1
    rcases List.mem_cons.mp hw0 with rfl | hw0r
    · -- w0 is the head element
      have hnorest : ∀ r ∈ pre, r.id = r0.id → ∀ w' ∈ rest, w'.1 ≠ r.word := by
        intro r hr hrid w' hw' he
        have hrr0 : r = r0 :=
          List.inj_on_of_nodup_map hpreinj hr hr0pre hrid
        subst hrr0
        apply hheadnm
        exact (he.trans hr0w) ▸ List.mem_map_of_mem (·.1) hw'
      rcases aok_not_referenced pre tid oid rest (nid) r0.id hpreinj hr0b
        hnorest with ⟨hcz, huz⟩
      constructor
      · simp only [aokPostings, hfind]
        rw [List.countP_cons_of_pos _ _ (by simp)]
        rw [hcz]
      · intro d
        simp only [aokUpdates, hfind, lastSet, List.foldl_cons, if_pos rfl]
        have := lastSet_of_forall_ne (aokUpdates pre rest) r0.id huz (r0.count + 1)
        simpa [lastSet] using this
    · -- w0 occurs in the tail
      have hw0m : w0.1 ∈ rest.map (·.1) := List.mem_map_of_mem (·.1) hw0r
      rcases hf : pre.find? (fun x => x.word == w.1) with _ | r1
      · constructor
        · simp only [aokPostings, hf]
          rw [List.countP_cons_of_neg _ _ (by simp; omega)]
          exact (ih (nid + 1) r0 w0 hkeys' (fun r hr => by
            have := hpreb r hr; omega) hw0r hfind).1
        · intro d
          simp only [aokUpdates, hf]
          exact (ih (nid + 1) r0 w0 hkeys' (fun r hr => by
            have := hpreb r hr; omega) hw0r hfind).2 d
      · have hw1 : r1.word = w.1 := find?_word_eq hf
        have hr1pre := List.mem_of_find?_eq_some hf
        have hne : w.1 ≠ w0.1 := by
          intro he
          exact hheadnm (he ▸ hw0m)
        have hr1r0 : r1.id ≠ r0.id := by
          intro he
          have : r1 = r0 := List.inj_on_of_nodup_map hpreinj hr1pre hr0pre he
          apply hne
          rw [← hw1, this, hr0w]
        constructor
        · simp only [aokPostings, hf]
          rw [List.countP_cons_of_neg _ _ (by simpa using hr1r0)]
          exact (ih nid r0 w0 hkeys' hpreb hw0r hfind).1
        · intro d
          simp only [aokUpdates, hf, lastSet, List.foldl_cons]
          rw [if_neg (fun he => hr1r0 he.symm)]
          exact (ih nid r0 w0 hkeys' hpreb hw0r hfind).2 d

theorem aok_new_counts (pre : List WordRow) (tid oid : Nat) :
    ∀ (ws : List (String × ℚ)) (nid : Nat) (row : WordRow),
      (∀ r ∈ pre, r.id < nid) →
      row ∈ aokNewRows pre nid ws →
      (aokPostings pre tid oid nid ws).countP
        (fun p => p.word_id == row.id) = 1 ∧
      ∀ ci ∈ aokUpdates pre ws, ci.2 ≠ row.id := by
  intro ws
  induction ws with
  | nil =>
    intro nid row _ h
    simp [aokNewRows] at h
  | cons w rest ih =>
    intro nid row hpreb hrow
    simp only [aokNewRows] at hrow
    rcases hf : pre.find? (fun x => x.word == w.1) with _ | r1
    · rw [hf] at hrow
      rcases List.mem_cons.mp hrow with rfl | hrow
      · -- the head row, id = nid
        constructor
        · simp only [aokPostings, hf]
          rw [List.countP_cons_of_pos _ _ (by simp)]
          have hz : (aokPostings pre tid oid (nid + 1) rest).countP
              (fun p => p.word_id == (⟨nid, w.1, 1⟩ : WordRow).id) = 0 := by
            rw [List.countP_eq_zero]
            intro p hp
            simp only [beq_iff_eq]
            intro hpi
            rcases aokPostings_mem pre tid oid rest (nid + 1) p hp with
              ⟨h1, _⟩ | ⟨r, hr, w', hw', hfind, hid⟩
            · omega
            · have := hpreb r hr
              omega
          rw [hz]
        · intro ci hci hcii
          simp only [aokUpdates, hf] at hci
          rcases aokUpdates_mem pre rest ci hci with ⟨r, hr, _, _, _, _, h2⟩
          have := hpreb r hr
          have hni : ci.2 = nid := hcii
          omega
      · -- a row from the tail, id ≥ nid + 1
        have hbound := aokNewRows_mem pre rest (nid + 1) row hrow
        constructor
        · simp only [aokPostings, hf]
          rw [List.countP_cons_of_neg _ _ (by simp; omega)]
          exact (ih (nid + 1) row (fun r hr => by
            have := hpreb r hr; omega) hrow).1
        · intro ci hci
          simp only [aokUpdates, hf] at hci
          exact (ih (nid + 1) row (fun r hr => by
            have := hpreb r hr; omega) hrow).2 ci hci
    · rw [hf] at hrow
      have hbound := aokNewRows_mem pre rest nid row hrow
      have hr1b := hpreb r1 (List.mem_of_find?_eq_some hf)
      constructor
      · simp only [aokPostings, hf]
        rw [List.countP_cons_of_neg _ _ (by simp; omega)]
        exact (ih nid row hpreb hrow).1
      · intro ci hci
        simp only [aokUpdates, hf] at hci
        rcases List.mem_cons.mp hci with rfl | hci
        · simp only
          omega
        · exact (ih nid row hpreb hrow).2 ci hci

/-- The inverted-index consistency invariant: every `words` row's count
equals the number of `words_map` rows referencing it, the word ids and the
words themselves are unique, and ids stay below the AUTOINCREMENT
cursor. -/
structure WordsGood (st : DBState) : Prop where
  counts : ∀ r ∈ st.words,
    r.count = (st.words_map.countP (fun p => p.word_id == r.id) : ℤ)
  idsNodup : (st.words.map fun r => r.id).Nodup
  wordsNodup : (st.words.map fun r => r.word).Nodup
  idBound : ∀ r ∈ st.words, r.id < st.nextWordId
  mapBound : ∀ p ∈ st.words_map, p.word_id < st.nextWordId

theorem wordsGood_kw_eq {s s' : DBState} (h1 : s'.words = s.words)
    (h2 : s'.words_map = s.words_map) (h3 : s'.nextWordId = s.nextWordId)
    (hg : WordsGood s) : WordsGood s' := by
  refine ⟨?_, ?_, ?_, ?_, ?_⟩
  · rw [h1, h2]; exact hg.counts
  · rw [h1]; exact hg.idsNodup
  · rw [h1]; exact hg.wordsNodup
  · rw [h1, h3]; exact hg.idBound
  · rw [h2, h3]; exact hg.mapBound

theorem countP_filter_split {α : Type} (l : List α) (p q : α → Bool) :
    (l.filter q).countP p + (l.filter fun a => !q a).countP p = l.countP p := by
  induction l with
  | nil => rfl
  | cons a l ih =>
    by_cases hq : q a = true
    · simp only [List.filter_cons, hq, if_pos, Bool.not_true,
        Bool.false_eq_true, if_false]
      by_cases hp : p a = true
      · rw [List.countP_cons_of_pos _ _ hp, List.countP_cons_of_pos _ _ hp]
        omega
      · rw [List.countP_cons_of_neg _ _ hp, List.countP_cons_of_neg _ _ hp]
        exact ih
    · simp only [List.filter_cons, hq, Bool.false_eq_true, if_false,
        Bool.not_false, if_pos]
      by_cases hp : p a = true
      · rw [List.countP_cons_of_pos _ _ hp, List.countP_cons_of_pos _ _ hp]
        omega
      · rw [List.countP_cons_of_neg _ _ hp, List.countP_cons_of_neg _ _ hp]
        exact ih

theorem foldl_decWordCount (ps : List Posting) :
    ∀ l : List WordRow,
      ps.foldl (fun ws p => decWordCount ws p.word_id) l =
        l.map fun r =>
          { r with count := r.count - (ps.countP fun p => p.word_id == r.id : ℤ) } := by
  induction ps with
  | nil =>
    intro l
    simp only [List.foldl_nil, List.countP_nil, Nat.cast_zero, sub_zero]
    exact (List.map_id l).symm.trans (List.map_congr_left fun r _ => rfl).symm
  | cons p ps ih =>
    intro l
    simp only [List.foldl_cons]
    rw [ih]
    unfold decWordCount
    rw [List.map_map]
    refine List.map_congr_left fun r _ => ?_
    simp only [Function.comp]
    by_cases hid : r.id = p.word_id
    · have hpos : (p.word_id == r.id) = true := by simp [hid]
      rw [if_pos hid]
      dsimp only
      rw [List.countP_cons_of_pos (fun q => q.word_id == r.id) ps hpos]
      congr 1
      push_cast
      ring
    · have hneg : ¬ (p.word_id == r.id) = true := by simp; omega
      rw [if_neg hid]
      rw [List.countP_cons_of_neg (fun q => q.word_id == r.id) ps hneg]

theorem map_id_of_count_update (l : List WordRow) (g : WordRow → ℤ) :
    ((l.map fun r => { r with count := g r }).map fun r => r.id) =
      l.map fun r => r.id := by
  rw [List.map_map]
  exact List.map_congr_left fun r _ => rfl

theorem map_word_of_count_update (l : List WordRow) (g : WordRow → ℤ) :
    ((l.map fun r => { r with count := g r }).map fun r => r.word) =
      l.map fun r => r.word := by
  rw [List.map_map]
  exact List.map_congr_left fun r _ => rfl

theorem wordsGood_delete (st : DBState) (hit : Posting → Bool)
    (hg : WordsGood st) :
    WordsGood { st with
      words_map := st.words_map.filter fun p => !hit p,
      words := (st.words_map.filter hit).foldl
        (fun ws p => decWordCount ws p.word_id) st.words } := by
  refine ⟨?_, ?_, ?_, ?_, ?_⟩ <;> dsimp only
  · rw [foldl_decWordCount]
    intro r' hr'
    rcases List.mem_map.mp hr' with ⟨r, hr, he⟩
    subst he
    dsimp only
    rw [hg.counts r hr]
    have hsplit := countP_filter_split st.words_map
      (fun p => p.word_id == r.id) hit
    omega
  · rw [foldl_decWordCount, map_id_of_count_update st.words
      (fun r => r.count -
        ((st.words_map.filter hit).countP fun p => p.word_id == r.id : ℤ))]
    exact hg.idsNodup
  · rw [foldl_decWordCount, map_word_of_count_update st.words
      (fun r => r.count -
        ((st.words_map.filter hit).countP fun p => p.word_id == r.id : ℤ))]
    exact hg.wordsNodup
  · rw [foldl_decWordCount]
    intro r' hr'
    rcases List.mem_map.mp hr' with ⟨r, hr, he⟩
    subst he
    dsimp only
    exact hg.idBound r hr
  · intro p hp
    exact hg.mapBound p (List.mem_of_mem_filter hp)

theorem deleteObjectsKeywordsOne_good (st : DBState) (tid : Nat)
    (ids : List Nat) (hg : WordsGood st) :
    WordsGood (deleteObjectsKeywordsOne st tid ids) :=
  wordsGood_delete st
    (fun p => p.object_type == tid && ids.contains p.object_id) hg

theorem deleteMultipleObjectsKeywords_good :
    ∀ (l : List (String × List Nat)) (st : DBState), WordsGood st →
      WordsGood (deleteMultipleObjectsKeywords st l).1 := by
  intro l
  induction l with
  | nil => intro st hg; exact hg
  | cons b rest ih =>
    intro st hg
    unfold deleteMultipleObjectsKeywords
    rcases h : alistGet st.types b.1 with _ | info
    · exact hg
    · exact ih _ (deleteObjectsKeywordsOne_good st info.id b.2 hg)

theorem deleteBatchStep_kw (acc : DBState × Nat × List (String × List Nat) × Option DbErr)
    (b : String × List Nat) :
    (deleteBatchStep acc b).1.words = acc.1.words ∧
    (deleteBatchStep acc b).1.words_map = acc.1.words_map ∧
    (deleteBatchStep acc b).1.nextWordId = acc.1.nextWordId := by
  unfold deleteBatchStep
  split
  · exact ⟨rfl, rfl, rfl⟩
  · split
    · exact ⟨rfl, rfl, rfl⟩
    · split
      · exact ⟨rfl, rfl, rfl⟩
      · exact ⟨rfl, rfl, rfl⟩

theorem foldl_deleteBatchStep_kw (bs : List (String × List Nat)) :
    ∀ acc : DBState × Nat × List (String × List Nat) × Option DbErr,
      (bs.foldl deleteBatchStep acc).1.words = acc.1.words ∧
      (bs.foldl deleteBatchStep acc).1.words_map = acc.1.words_map ∧
      (bs.foldl deleteBatchStep acc).1.nextWordId = acc.1.nextWordId := by
  induction bs with
  | nil => intro acc; exact ⟨rfl, rfl, rfl⟩
  | cons b bs ih =>
    intro acc
    simp only [List.foldl_cons]
    rcases ih (deleteBatchStep acc b) with ⟨h1, h2, h3⟩
    rcases deleteBatchStep_kw acc b with ⟨g1, g2, g3⟩
    exact ⟨h1.trans g1, h2.trans g2, h3.trans g3⟩

theorem deleteMultipleObjects_good :
    ∀ (fuel : Nat) (st : DBState) (objs : List (String × List Nat)),
      WordsGood st → WordsGood (deleteMultipleObjects st objs fuel).1 := by
  intro fuel
  induction fuel with
  | zero => intro st objs hg; exact hg
  | succ n ih =>
    intro st objs hg
    unfold deleteMultipleObjects
    rcases hk : deleteMultipleObjectsKeywords st objs with ⟨s, err⟩
    have hs : WordsGood s := by
      have := deleteMultipleObjectsKeywords_good objs st hg
      rw [hk] at this
      exact this
    rcases err with _ | e
    · simp only []
      rcases hf : objs.foldl deleteBatchStep (s, 0, [], Option.none) with
        ⟨s2, ct, ch, err2⟩
      have hkw := foldl_deleteBatchStep_kw objs (s, 0, [], Option.none)
      rw [hf] at hkw
      have hs2 : WordsGood s2 := wordsGood_kw_eq hkw.1 hkw.2.1 hkw.2.2 hs
      rcases err2 with _ | e2
      · simp only []
        by_cases hch : ch.isEmpty = true
        · rw [if_pos hch]
          exact hs2
        · rw [if_neg hch]
          rcases hr : deleteMultipleObjects s2 ch n with ⟨s3, c3, err3⟩
          have := ih s2 ch hs2
          rw [hr] at this
          exact this
      · exact hs2
    · exact hs

theorem alistGet_none_not_mem {α β : Type} [DecidableEq α] (l : List (α × β))
    (k : α) (h : alistGet l k = Option.none) : k ∉ l.map fun kv => kv.1 := by
  induction l with
  | nil => simp
  | cons x xs ih =>
    rcases x with ⟨a, b⟩
    simp only [alistGet] at h
    by_cases hk : k = a
    · rw [if_pos hk] at h
      exact absurd h (by simp)
    · rw [if_neg hk] at h
      simp only [List.map_cons, List.mem_cons]
      intro hc
      rcases hc with hc | hc
      · exact hk hc
      · exact ih h hc

theorem alistSet_keys_of_mem {α β : Type} [DecidableEq α] :
    ∀ (l : List (α × β)) (k : α) (v : β), k ∈ (l.map fun kv => kv.1) →
      (alistSet l k v).map (fun kv => kv.1) = l.map fun kv => kv.1 := by
  intro l
  induction l with
  | nil => intro k v h; simp at h
  | cons x xs ih =>
    intro k v h
    rcases x with ⟨a, b⟩
    simp only [alistSet]
    by_cases hk : k = a
    · rw [if_pos hk]
      simp [hk]
    · rw [if_neg hk]
      simp only [List.map_cons]
      congr 1
      apply ih
      simp only [List.map_cons, List.mem_cons] at h
      rcases h with h | h
      · exact absurd h hk
      · exact h

theorem addTok_keys_nodup (coeff : ℚ) (acc : List (String × ℚ) × Nat)
    (w : String) (h : (acc.1.map fun kv => kv.1).Nodup) :
    ((addTok coeff acc w).1.map fun kv => kv.1).Nodup := by
  unfold addTok
  split
  · exact h
  · split
    · exact h
    · rcases hg : alistGet acc.1 (lowerStr w) with _ | s
      · simp only []
        have hnm := alistGet_none_not_mem acc.1 (lowerStr w) hg
        simp only [List.map_append, List.map_cons, List.map_nil]
        refine List.Nodup.append h (List.nodup_singleton _) ?_
        intro x hx hx2
        simp only [List.mem_singleton] at hx2
        subst hx2
        exact hnm hx
      · simp only []
        rw [alistSet_keys_of_mem]
        · exact h
        · exact List.mem_map_of_mem (fun kv => kv.1)
            (alistGet_mem acc.1 (lowerStr w) s hg)

theorem foldTok_keys_nodup (coeff : ℚ) (toks : List String) :
    ∀ acc : List (String × ℚ) × Nat, (acc.1.map fun kv => kv.1).Nodup →
      ((toks.foldl (addTok coeff) acc).1.map fun kv => kv.1).Nodup := by
  induction toks with
  | nil => intro acc h; exact h
  | cons t toks ih =>
    intro acc h
    exact ih _ (addTok_keys_nodup coeff acc t h)

theorem scoreAccum_keys_nodup :
    ∀ (parts : List (Value × ℚ)) (acc res : List (String × ℚ) × Nat),
      (acc.1.map fun kv => kv.1).Nodup →
      scoreAccum parts acc = .ok res →
      (res.1.map fun kv => kv.1).Nodup := by
  intro parts
  induction parts with
  | nil =>
    intro acc res h he
    simp only [scoreAccum, Except.ok.injEq] at he
    rw [← he]
    exact h
  | cons pc rest ih =>
    intro acc res h he
    rcases pc with ⟨v, coeff⟩
    simp only [scoreAccum] at he
    by_cases hv : v.isFalsy = true
    · rw [if_pos hv] at he
      exact ih acc res h he
    · rw [if_neg hv] at he
      rcases ht : v.textOf with _ | text
      · rw [ht] at he
        exact Except.noConfusion he
      · rw [ht] at he
        exact ih _ res (foldTok_keys_nodup coeff (partTokens text) acc h) he

theorem scoreWords_keys_nodup (parts : List (Value × ℚ))
    (ws : List (String × ℚ)) (h : scoreWords parts = .ok ws) :
    (ws.map fun kv => kv.1).Nodup := by
  unfold scoreWords at h
  rcases ha : scoreAccum parts ([], 0) with e | acc
  · rw [ha] at h
    exact Except.noConfusion h
  · rw [ha, Except.ok.injEq] at h
    subst h
    rw [List.map_map]
    have hn := scoreAccum_keys_nodup parts ([], 0) acc (by simp) ha
    have hm : acc.1.map
        ((fun kv : String × ℚ => kv.1) ∘ fun p => (p.1, p.2 / (acc.2 : ℚ))) =
        acc.1.map fun kv => kv.1 := List.map_congr_left fun p _ => rfl
    rw [hm]
    exact hn

theorem aokNewRows_words_nodup (pre : List WordRow) :
    ∀ (ws : List (String × ℚ)) (nid : Nat), (ws.map (·.1)).Nodup →
      ((aokNewRows pre nid ws).map fun r => r.word).Nodup := by
  intro ws
  induction ws with
  | nil => intro nid _; simp [aokNewRows]
  | cons w rest ih =>
    intro nid hk
    have hk' : (rest.map (·.1)).Nodup := (List.nodup_cons.mp hk).2
    have hknm : w.1 ∉ rest.map (·.1) := (List.nodup_cons.mp hk).1
    rcases hf : pre.find? (fun r => r.word == w.1) with _ | r
    · simp only [aokNewRows, hf, List.map_cons, List.nodup_cons]
      refine ⟨?_, ih (nid + 1) hk'⟩
      intro hmem
      rcases List.mem_map.mp hmem with ⟨row, hrow, heq⟩
      rcases (aokNewRows_mem pre rest (nid + 1) row hrow).2.2.2 with
        ⟨w', hw', hweq, _⟩
      have hww : w.1 = w'.1 := heq ▸ hweq
      exact hknm (hww.symm ▸ List.mem_map_of_mem (·.1) hw')
    · simp only [aokNewRows, hf]
      exact ih nid hk'

theorem aokNewRows_word_fresh (st : DBState) (ws : List (String × ℚ))
    (nid : Nat) (row : WordRow)
    (hrow : row ∈ aokNewRows (aokPre st ws) nid ws) :
    ∀ r ∈ st.words, r.word ≠ row.word := by
  intro r hr he
  rcases (aokNewRows_mem _ ws nid row hrow).2.2.2 with ⟨w', hw', hweq, hfind⟩
  have hrpre : r ∈ aokPre st ws := by
    unfold aokPre
    refine List.mem_filter.mpr ⟨hr, ?_⟩
    have : r.word ∈ ws.map (·.1) := by
      rw [he, hweq]
      exact List.mem_map_of_mem (·.1) hw'
    simpa using this
  have hnp := List.find?_eq_none.mp hfind r hrpre
  apply hnp
  simp only [beq_iff_eq]
  rw [he, hweq]

set_option maxHeartbeats 1000000 in
theorem addObjectKeywords_good (st : DBState) (tid oid : Nat)
    (ws : List (String × ℚ)) (hkeys : (ws.map fun kv => kv.1).Nodup)
    (hg : WordsGood st) : WordsGood (addObjectKeywords st tid oid ws) := by
  rw [addObjectKeywords_eq]
  have hpresub : ∀ r ∈ aokPre st ws, r ∈ st.words :=
    fun r hr => List.mem_of_mem_filter hr
  have hpreinj : ((aokPre st ws).map fun r => r.id).Nodup :=
    hg.idsNodup.sublist (List.Sublist.map _ (List.filter_sublist _))
  have hpreb : ∀ r ∈ aokPre st ws, r.id < st.nextWordId :=
    fun r hr => hg.idBound r (hpresub r hr)
  refine ⟨?_, ?_, ?_, ?_, ?_⟩ <;> dsimp only
  · unfold aokWordsAfter
    intro r' hr'
    rcases List.mem_map.mp hr' with ⟨r, hr, he⟩
    subst he
    dsimp only
    rw [List.countP_append]
    rcases List.mem_append.mp hr with hrw | hrN
    · by_cases hmem : r.word ∈ ws.map fun kv => kv.1
      · rcases List.mem_map.mp hmem with ⟨w0, hw0, hw0eq⟩
        have hrpre : r ∈ aokPre st ws := by
          unfold aokPre
          refine List.mem_filter.mpr ⟨hrw, ?_⟩
          simpa using hmem
        rcases hf : (aokPre st ws).find? (fun x => x.word == w0.1) with _ | r1
        · exact absurd (List.find?_eq_none.mp hf r hrpre)
            (by simp only [beq_iff_eq, not_not]; exact hw0eq.symm)
        · have hr1 : r1 = r := by
            have h1 := List.mem_of_find?_eq_some hf
            have h2 := find?_word_eq hf
            exact List.inj_on_of_nodup_map hg.wordsNodup (hpresub r1 h1) hrw
              (by rw [h2, hw0eq])
          subst hr1
          rcases aok_found_counts (aokPre st ws) tid oid hpreinj ws
            st.nextWordId r1 w0 hkeys hpreb hw0 hf with ⟨hcp, hlast⟩
          rw [hlast r1.count, hcp, hg.counts r1 hrw]
          push_cast
          ring
      · have hno : ∀ x ∈ aokPre st ws, x.id = r.id → ∀ w ∈ ws, w.1 ≠ x.word := by
          intro x hx hxid w hw he
          have hxr : x = r :=
            List.inj_on_of_nodup_map hg.idsNodup (hpresub x hx) hrw hxid
          subst hxr
          exact hmem (he ▸ List.mem_map_of_mem (fun kv => kv.1) hw)
        rcases aok_not_referenced (aokPre st ws) tid oid ws st.nextWordId r.id
          hpreinj (hg.idBound r hrw) hno with ⟨hcz, huz⟩
        rw [hcz, lastSet_of_forall_ne _ _ huz r.count, hg.counts r hrw]
        push_cast
        ring
    · have hb := aokNewRows_mem (aokPre st ws) ws st.nextWordId r hrN
      rcases aok_new_counts (aokPre st ws) tid oid ws st.nextWordId r
        hpreb hrN with ⟨hcp, huz⟩
      have hcz : st.words_map.countP (fun p => p.word_id == r.id) = 0 := by
        rw [List.countP_eq_zero]
        intro p hp
        have h1 := hg.mapBound p hp
        have h2 := hb.1
        simp only [beq_iff_eq]
        omega
      rw [hcz, hcp, lastSet_of_forall_ne _ _ huz r.count, hb.2.2.1]
      norm_num
  · unfold aokWordsAfter
    rw [map_id_of_count_update
      (st.words ++ aokNewRows (aokPre st ws) st.nextWordId ws)
      (fun r => lastSet (aokUpdates (aokPre st ws) ws) r.id r.count)]
    rw [List.map_append]
    refine List.Nodup.append hg.idsNodup
      (aokNewRows_ids_nodup _ ws st.nextWordId) ?_
    intro i h1 h2
    rcases List.mem_map.mp h1 with ⟨r, hr, he⟩
    rcases List.mem_map.mp h2 with ⟨row, hrow, he2⟩
    have hb1 := hg.idBound r hr
    have hb2 := (aokNewRows_mem _ ws st.nextWordId row hrow).1
    omega
  · unfold aokWordsAfter
    rw [map_word_of_count_update
      (st.words ++ aokNewRows (aokPre st ws) st.nextWordId ws)
      (fun r => lastSet (aokUpdates (aokPre st ws) ws) r.id r.count)]
    rw [List.map_append]
    refine List.Nodup.append hg.wordsNodup
      (aokNewRows_words_nodup _ ws st.nextWordId hkeys) ?_
    intro wstr h1 h2
    rcases List.mem_map.mp h1 with ⟨r, hr, he⟩
    rcases List.mem_map.mp h2 with ⟨row, hrow, he2⟩
    exact aokNewRows_word_fresh st ws st.nextWordId row hrow r hr
      (he.trans he2.symm)
  · unfold aokWordsAfter
    intro r' hr'
    rcases List.mem_map.mp hr' with ⟨r, hr, he⟩
    subst he
    dsimp only
    rcases List.mem_append.mp hr with h | h
    · have := hg.idBound r h
      omega
    · have := (aokNewRows_mem _ ws st.nextWordId r h).2.1
      omega
  · intro p hp
    rcases List.mem_append.mp hp with h | h
    · have := hg.mapBound p h
      omega
    · rcases aokPostings_mem _ tid oid ws st.nextWordId p h with
        ⟨h1, h2⟩ | ⟨r, hrp, w, hw, hfind, hid⟩
      · omega
      · have := hpreb r hrp
        omega

theorem createTableAndMigrate_kw (st : DBState) (tn : String)
    (old : Option (Nat × List (String × AttrSpec)))
    (attrs : List (String × AttrSpec)) (idx : List (List String)) (s : DBState)
    (h : createTableAndMigrate st tn old attrs idx = .ok s) :
    s.words = st.words ∧ s.words_map = st.words_map ∧
      s.nextWordId = st.nextWordId := by
  unfold createTableAndMigrate at h
  split at h
  · exact Except.noConfusion h
  · split at h
    · simp only [] at h
      split at h
      · exact Except.noConfusion h
      · rw [Except.ok.injEq] at h
        subst h
        exact ⟨rfl, rfl, rfl⟩
    · rw [Except.ok.injEq] at h
      subst h
      exact ⟨rfl, rfl, rfl⟩

theorem registerObjectTypeAttrs_kw (st : DBState) (t : String)
    (idx : List (List String)) (attrs : List (String × AttrSpec)) (s : DBState)
    (h : registerObjectTypeAttrs st t idx attrs = .ok s) :
    s.words = st.words ∧ s.words_map = st.words_map ∧
      s.nextWordId = st.nextWordId := by
  unfold registerObjectTypeAttrs at h
  split at h
  · exact Except.noConfusion h
  · split at h
    · simp only [] at h
      split at h
      · rw [Except.ok.injEq] at h
        subst h
        exact ⟨rfl, rfl, rfl⟩
      · split at h
        · exact Except.noConfusion h
        · split at h
          · rw [Except.ok.injEq] at h
            subst h
            refine ⟨?_, ?_, ?_⟩ <;> (split <;> split <;> rfl)
          · exact createTableAndMigrate_kw _ _ _ _ _ _ h
    · simp only [] at h
      split at h
      · exact Except.noConfusion h
      · exact createTableAndMigrate_kw _ _ _ _ _ _ h

theorem wordsGood_kw_eq2 {s : DBState} (hg : WordsGood s) {s' : DBState}
    (h1 : s'.words = s.words) (h2 : s'.words_map = s.words_map)
    (h3 : s'.nextWordId = s.nextWordId) : WordsGood s' :=
  wordsGood_kw_eq h1 h2 h3 hg

theorem wordsGood_bumpKw {s : DBState} (hg : WordsGood s) :
    WordsGood { s with kwObjCount := s.kwObjCount + 1 } :=
  wordsGood_kw_eq2 hg rfl rfl rfl

theorem addObject_good (st : DBState) (t : String) (p : Option (String × Nat))
    (a : List (String × Value)) (hg : WordsGood st) :
    WordsGood (addObject st t p a).1 := by
  unfold addObject
  repeat
    any_goals
      first
      | exact hg
      | exact wordsGood_kw_eq2 hg rfl rfl rfl
      | exact scoreWords_keys_nodup _ _ (by assumption)
      | apply wordsGood_bumpKw
      | apply addObjectKeywords_good
      | split
      | simp only []

theorem updateObject_good (st : DBState) (t : String) (oid : Nat)
    (p : Option (String × Nat)) (a : List (String × Value))
    (hg : WordsGood st) : WordsGood (updateObject st t oid p a).1 := by
  unfold updateObject
  repeat
    any_goals
      first
      | exact hg
      | exact wordsGood_kw_eq2 hg rfl rfl rfl
      | exact scoreWords_keys_nodup _ _ (by assumption)
      | apply addObjectKeywords_good
      | apply deleteMultipleObjectsKeywords_good
      | split
      | simp only []

theorem deleteByQuery_good (st : DBState) (qt : Option String)
    (l : Option Nat) (cs : List (String × Value)) (fuel : Nat)
    (hg : WordsGood st) : WordsGood (deleteByQuery st qt l cs fuel).1 := by
  unfold deleteByQuery
  split
  · exact hg
  · split
    · exact hg
    · exact deleteMultipleObjects_good fuel st _ hg

theorem applyOp_good (st : DBState) (op : DbOp) (hg : WordsGood st) :
    WordsGood (applyOp st op) := by
  cases op with
  | register t idx attrs =>
    simp only [applyOp]
    split
    · rename_i s hreg
      rcases registerObjectTypeAttrs_kw st t idx attrs s hreg with ⟨h1, h2, h3⟩
      exact wordsGood_kw_eq h1 h2 h3 hg
    · exact hg
  | add t p a => exact addObject_good st t p a hg
  | update t i p a => exact updateObject_good st t i p a hg
  | deleteObj t i => exact deleteMultipleObjects_good (opFuel st) st [(t, [i])] hg
  | deleteByQ qt l cs => exact deleteByQuery_good st qt l cs (opFuel st) hg

theorem emptyState_good : WordsGood emptyState := by
  refine ⟨?_, ?_, ?_, ?_, ?_⟩ <;> simp [emptyState]

theorem runOps_good (ops : List DbOp) : WordsGood (runOps ops) := by
  unfold runOps
  have h : ∀ (l : List DbOp) (st : DBState), WordsGood st →
      WordsGood (l.foldl applyOp st) := by
    intro l
    induction l with
    | nil => intro st hg; exact hg
    | cons o l ih =>
      intro st hg
      exact ih _ (applyOp_good st o hg)
  exact h ops emptyState emptyState_good

/-- A concrete operation sequence for the C2 witness: register one type
with a keyword attribute and add one object whose keyword text is
"hello world". -/
def opsC2 : List DbOp :=
  [DbOp.register "t" []
    [("kw", (PyType.str, ATTR_SEARCHABLE ||| ATTR_KEYWORDS))],
   DbOp.add "t" Option.none [("kw", Value.vstr "hello world")]]

/-- C2: after every sequence of `register_object_type_attrs`, `add_object`,
`update_object`, `delete_object` and `delete_by_query` operations run from
a fresh database, every row of the `words` table has `count` equal to the
number of live `words_map` rows whose `word_id` references it: every path
that removes postings decrements the counter through the
`delete_words_map` trigger, and every path that adds postings increments
it by exactly one per object. -/
theorem claim_C2_words_invariant (ops : List DbOp) :
    ∀ r ∈ (runOps ops).words,
      r.count =
        (((runOps ops).words_map.filter
          fun p => p.word_id == r.id).length : ℤ) := by
  intro r hr
  rw [(runOps_good ops).counts r hr, List.countP_eq_length_filter]

set_option maxHeartbeats 2000000 in
theorem claim_C2_words_invariant_witness :
    (⟨1, "hello", 1⟩ : WordRow) ∈ (runOps opsC2).words ∧
    (⟨1, "hello", 1⟩ : WordRow).count =
      (((runOps opsC2).words_map.filter
        fun p => p.word_id == (⟨1, "hello", 1⟩ : WordRow).id).length : ℤ) :=
  have hmem : (⟨1, "hello", 1⟩ : WordRow) ∈ (runOps opsC2).words :=
    of_decide_eq_true (by with_unfolding_all rfl)
  ⟨hmem, claim_C2_words_invariant opsC2 ⟨1, "hello", 1⟩ hmem⟩

end KaaDb
